import Mathlib

/-!
Verification of the segment-recommendation core of `adaptive_microlearning_app.py`
(repository CodeED).

The Python code is shallowly embedded as follows.

* Python floats are modelled as exact rationals (`ℚ`).  `round` (banker's
  rounding, ties to even) is `pyRound`, `int(...)` (truncation towards zero)
  is `pyInt`, `range(a, b)` is `pyRange a b`.
* Dictionaries holding segment data become structures; a field read with
  `seg.get('k')` that may be absent is an `Option`; `seg.get('k', d)` becomes
  `Option.getD _ d`.  `float(None)` raises a `TypeError` in Python, modelled
  by `Except.error PyError.typeError`.
* The mutable list `dp` of length `cap+1` is modelled as a function
  `ℕ → ℤ`; every read and write performed by the code stays inside
  `0 .. cap`, which the loop bounds guarantee.
* Python's stable `list.sort(key=...)` is modelled by the (stable)
  insertion sort `List.insertionSort`.
* The Python set `chosen_indices` together with the `while` loop is modelled
  by `backtrackAux`, which carries the insertion-ordered list of chosen
  indices and the remaining capacity `cur`; the fuel argument `cap+1`
  dominates the number of iterations of the Python loop (each iteration
  either exits or strictly decreases `cur`, which starts at `best ≤ cap`).
  Iteration order over the Python set is unspecified; all statements proved
  below are insensitive to the order of the returned list.
-/

/-- `round(x)` of Python: nearest integer, ties to even. -/
def pyRound (x : ℚ) : ℤ :=
  if Int.fract x < 1/2 then ⌊x⌋
  else if 1/2 < Int.fract x then ⌊x⌋ + 1
  else if Even ⌊x⌋ then ⌊x⌋ else ⌊x⌋ + 1

/-- `int(x)` of Python: truncation towards zero. -/
def pyInt (x : ℚ) : ℤ :=
  if 0 ≤ x then ⌊x⌋ else ⌈x⌉

/-- `range(a, b)` of Python (ascending, empty when `b ≤ a`). -/
def pyRange (a b : ℤ) : List ℤ :=
  (List.range (b - a).toNat).map (fun k : ℕ => a + (k : ℤ))

/-- `SCALE = 10`. -/
def SCALE : ℚ := 10

/-- `to_units(mins)`: `max(0, int(round(mins * SCALE)))`. -/
def to_units (mins : ℚ) : ℤ :=
  max 0 (pyRound (mins * SCALE))

/-- `from_units(u)`: `u / SCALE`. -/
def from_units (u : ℤ) : ℚ :=
  (u : ℚ) / SCALE

/-- A raw segment dictionary inside a lecture; absent keys are `none`. -/
structure Seg where
  topic : Option String
  mins : Option ℚ
  difficulty : Option ℤ
  order : Option ℤ
deriving DecidableEq

/-- A raw lecture dictionary. -/
structure Lecture where
  title : Option String
  segments : List Seg
deriving DecidableEq

/-- The flattened segment record produced by `flatten_segments`. -/
structure Item where
  id : String
  lecture_index : ℕ
  lecture_title : Option String
  topic : Option String
  mins : ℚ
  difficulty : ℤ
  order : ℤ
deriving DecidableEq

/-- The only failure the Python code can actually raise while flattening:
`float(None)` raises a `TypeError` when a segment has no `mins` key.
(No `MalformedSegmentError` class exists anywhere in the source.) -/
inductive PyError where
  | typeError
deriving DecidableEq

/-- Inner loop of `flatten_segments` over one lecture's segment list,
starting at segment index `si`. -/
def flattenLec (li : ℕ) (title : Option String) : ℕ → List Seg → Except PyError (List Item)
  | _, [] => .ok []
  | si, seg :: rest =>
    match seg.mins with
    | none => .error .typeError
    | some m =>
      (flattenLec li title (si + 1) rest).map fun tail =>
        { id := toString li ++ "-" ++ toString si
          lecture_index := li
          lecture_title := title
          topic := seg.topic
          mins := m
          difficulty := seg.difficulty.getD 3
          order := seg.order.getD 1 } :: tail

/-- Outer loop of `flatten_segments` over the lectures, `li` the lecture index. -/
def flattenAux : ℕ → List Lecture → Except PyError (List Item)
  | _, [] => .ok []
  | li, lec :: rest => do
    let head ← flattenLec li lec.title 0 lec.segments
    let tail ← flattenAux (li + 1) rest
    .ok (head ++ tail)

/-- `flatten_segments(lectures)`. -/
def flatten_segments (lectures : List Lecture) : Except PyError (List Item) :=
  flattenAux 0 lectures

/-- The streak record stored under `store['streak']`. -/
structure Streak where
  current : ℤ
  last_date : Option String
  minutes_today : ℚ
  last_fatigue : ℚ
deriving DecidableEq

/-- `update_streak(store, minutes_done)`.  The ambient `date.today()` and the
stored `store['settings']['daily_mins']` are passed explicitly; the function is
otherwise a literal transcription of the two branches of the source. -/
def update_streak (today_str : String) (daily_target : ℚ) (streak : Streak)
    (minutes_done : ℚ) : Streak :=
  if streak.last_date ≠ some today_str then
    { streak with
      minutes_today := minutes_done
      current := if minutes_done ≥ daily_target then streak.current + 1 else 0
      last_date := some today_str }
  else
    let mt := streak.minutes_today + minutes_done
    { streak with
      minutes_today := mt
      current :=
        if mt ≥ daily_target ∧ mt - minutes_done < daily_target
        then streak.current + 1 else streak.current }

/-- `compute_fatigue(minutes_done, avg_difficulty)`. -/
def compute_fatigue (minutes_done avg_difficulty : ℚ) : ℚ :=
  min (7/1000 * minutes_done + 2/100 * avg_difficulty) 1

/-- A completed-course record, restricted to the two keys the recommender reads. -/
structure Completed where
  lecture_title : Option String
  topic : Option String
deriving DecidableEq

/-- The reduced dictionary built for each chosen segment at the end of
`recommend_segments` (the early-return path returns the full item
dictionaries; only these shared keys are observed by the claims, so the
early-return path is mapped through `toChosen` to keep one return type). -/
structure ChosenSeg where
  lecture_title : Option String
  topic : Option String
  mins : ℚ
  difficulty : ℤ
  order : ℤ
deriving DecidableEq

def toChosen (it : Item) : ChosenSeg :=
  { lecture_title := it.lecture_title
    topic := it.topic
    mins := it.mins
    difficulty := it.difficulty
    order := it.order }

/-- Lines 79-80: drop items whose `(lecture_title, topic)` is completed. -/
def completedFilter (completed : List Completed) (items : List Item) : List Item :=
  items.filter fun it =>
    !decide ((it.lecture_title, it.topic) ∈
      completed.map fun c => (c.lecture_title, c.topic))

/-- Lines 82-83: if a non-empty lecture selection was passed, keep only items
of selected lectures (`None` and `[]` are both falsy in Python). -/
def scopeFilter (selected_lectures : Option (List String)) (items : List Item) : List Item :=
  match selected_lectures with
  | none => items
  | some sel =>
    if sel.isEmpty then items
    else items.filter fun it => decide (∃ t ∈ sel, some t = it.lecture_title)

/-- Insertion order of the keys of the `defaultdict` `order_map`
(Python dicts preserve first-insertion order). -/
def orderMapKeys (items : List Item) : List (Option String) :=
  items.foldl (fun ks it => if it.lecture_title ∈ ks then ks else ks ++ [it.lecture_title]) []

/-- The per-title value list of `order_map` (filtering preserves item order,
exactly as repeated `append` does). -/
def segsOf (items : List Item) (t : Option String) : List Item :=
  items.filter fun it => decide (it.lecture_title = t)

/-- `segs.sort(key=lambda x: x['order'])` — a stable sort by `order`. -/
def sortByOrder (segs : List Item) : List Item :=
  segs.insertionSort fun a b => a.order ≤ b.order

/-- Lines 95-99: the per-lecture frontier scan.  `available_orders` starts as
`{1}`; a segment is kept iff its order is `1` or is in the set, and keeping it
inserts `order + 1`. -/
def gateScan : List Item → Finset ℤ → List Item
  | [], _ => []
  | s :: rest, avail =>
    if s.order = 1 ∨ s.order ∈ avail
    then s :: gateScan rest (insert (s.order + 1) avail)
    else gateScan rest avail

/-- Lines 88-100: the soft-order gate over all lectures. -/
def orderGate (items : List Item) : List Item :=
  (orderMapKeys items).flatMap fun t => gateScan (sortByOrder (segsOf items t)) {1}

/-- Lines 107-112: the fatigue-derated `(low_u, high_u)` window. -/
def budgetWindow (daily_mins fatigue_score : ℚ) : ℤ × ℤ :=
  let low0 := to_units (daily_mins * (7/10))
  let high0 := to_units (daily_mins * (13/10))
  let low1 := if fatigue_score > 6/10 then pyInt ((low0 : ℚ) * (9/10)) else low0
  let high1 := if fatigue_score > 6/10 then pyInt ((high0 : ℚ) * (85/100)) else high0
  let low2 := if fatigue_score > 8/10 then pyInt ((low1 : ℚ) * (9/10)) else low1
  let high2 := if fatigue_score > 8/10 then pyInt ((high1 : ℚ) * (7/10)) else high1
  (low2, high2)

/-- The scaled item of line 116: the unit weight together with the item fields. -/
structure Scaled where
  u : ℤ
  it : Item
deriving DecidableEq

def dummyItem : Item :=
  { id := "", lecture_index := 0, lecture_title := none, topic := none,
    mins := 0, difficulty := 3, order := 1 }

def dummyScaled : Scaled := { u := 0, it := dummyItem }

def mkScaled (items : List Item) : List Scaled :=
  items.map fun it => { u := to_units it.mins, it := it }

/-- Python list indexing, including the negative-index convention.  All
indices that actually occur in the backtrack are proved below to be valid
non-negative positions. -/
def pyIdx (l : List Scaled) (i : ℤ) : Scaled :=
  if 0 ≤ i then l.getD i.toNat dummyScaled
  else l.getD (l.length - (-i).toNat) dummyScaled

/-- One conditional write `if dp[s]==-1 and dp[s-w]!=-1: dp[s]=i`. -/
def dpStep (i : ℤ) (w : ℕ) (d : ℕ → ℤ) (s : ℕ) : ℕ → ℤ :=
  if d s = -1 ∧ d (s - w) ≠ -1 then Function.update d s i else d

/-- `range(cap, w-1, -1)`: the capacities `cap, cap-1, ..., w`. -/
def descRange (cap w : ℕ) : List ℕ :=
  (List.range' w (cap + 1 - w)).reverse

/-- Lines 122-124: one item's pass over the dp array. -/
def dpPass (cap : ℕ) (i : ℤ) (w : ℕ) (d : ℕ → ℤ) : ℕ → ℤ :=
  (descRange cap w).foldl (dpStep i w) d

/-- Lines 118-124: `dp=[-1]*(cap+1); dp[0]=-2;` then one pass per item with
positive weight (`if w<=0: continue`). -/
def buildDp (cap : ℕ) (scaled : List Scaled) : ℕ → ℤ :=
  scaled.enum.foldl
    (fun d p => if p.2.u ≤ 0 then d else dpPass cap (p.1 : ℤ) p.2.u.toNat d)
    (fun s => if s = 0 then -2 else -1)

/-- Lines 126-128: `best=-1; for s in range(low_u,cap+1): if dp[s]!=-1: best=s`. -/
def primaryBest (d : ℕ → ℤ) (low cap : ℤ) : ℤ :=
  (pyRange low (cap + 1)).foldl (fun b s => if d s.toNat ≠ -1 then s else b) (-1)

/-- Lines 130-131: the downward scan with `break`. -/
def fallbackDown (d : ℕ → ℤ) (low : ℤ) : ℤ :=
  match (pyRange 0 low).reverse.find? (fun s => decide (d s.toNat ≠ -1)) with
  | some s => s
  | none => -1

/-- Lines 133-134: the upward scan with `break`. -/
def fallbackUp (d : ℕ → ℤ) (low cap : ℤ) : ℤ :=
  match (pyRange (low + 1) (cap + 1)).find? (fun s => decide (d s.toNat ≠ -1)) with
  | some s => s
  | none => -1

/-- Lines 137-142: the backtracking `while` loop.  State: remaining fuel,
current capacity `cur`, insertion-ordered chosen indices.  Returns the chosen
indices and the final `cur`. -/
def backtrackAux (scaled : List Scaled) (d : ℕ → ℤ) :
    ℕ → ℤ → List ℤ → List ℤ × ℤ
  | 0, cur, acc => (acc, cur)
  | fuel + 1, cur, acc =>
    if cur ≤ 0 then (acc, cur)
    else
      let i := d cur.toNat
      if i ∈ acc then (acc, cur)
      else backtrackAux scaled d fuel (cur - (pyIdx scaled i).u) (acc ++ [i])

/-- Lines 105-150 of `recommend_segments`: the fatigue-adjusted knapsack
selection applied to the already-filtered eligible items. -/
def knapsackSelect (items : List Item) (daily_mins fatigue_score : ℚ) :
    List ChosenSeg × ℚ :=
  let total_available_time := (items.map fun it => it.mins).sum
  let lw := budgetWindow daily_mins fatigue_score
  let low_u := lw.1
  let high_u := lw.2
  if from_units low_u > total_available_time then
    (items.map toChosen, total_available_time)
  else
    let scaled := mkScaled items
    let cap : ℤ := min ((scaled.map fun sc => sc.u).sum) high_u
    let d := buildDp cap.toNat scaled
    let best0 := primaryBest d low_u cap
    let best :=
      if best0 = -1 then
        let b1 := fallbackDown d low_u
        if b1 = -1 then fallbackUp d low_u cap else b1
      else best0
    if best ≤ 0 then ([], 0)
    else
      let bt := backtrackAux scaled d (cap.toNat + 1) best []
      let chosen := bt.1.map fun i => toChosen (pyIdx scaled i).it
      (chosen, (chosen.map fun c => c.mins).sum)

/-- `recommend_segments(lectures, daily_mins, fatigue_score, completed_courses,
selected_lectures)`, lines 74-150. -/
def recommend_segments (lectures : List Lecture) (daily_mins fatigue_score : ℚ)
    (completed_courses : List Completed) (selected_lectures : Option (List String)) :
    Except PyError (List ChosenSeg × ℚ) := do
  let items0 ← flatten_segments lectures
  if items0.isEmpty then return ([], 0)
  let items1 := completedFilter completed_courses items0
  let items2 := scopeFilter selected_lectures items1
  if items2.isEmpty then return ([], 0)
  let items3 := orderGate items2
  if items3.isEmpty then return ([], 0)
  return knapsackSelect items3 daily_mins fatigue_score

/-- Modelled from the spec's words for claim C2 only: fatigue derating with
each threshold's multipliers applied to the *original* `low0`/`high0` values
("non-chained from a prior reduced value").  Compared against the source's
`budgetWindow`, which chains the two reductions. -/
def independentBudgetWindow (daily_mins fatigue_score : ℚ) : ℤ × ℤ :=
  let low0 := to_units (daily_mins * (7/10))
  let high0 := to_units (daily_mins * (13/10))
  if fatigue_score > 8/10 then
    (pyInt ((low0 : ℚ) * (9/10)), pyInt ((high0 : ℚ) * (7/10)))
  else if fatigue_score > 6/10 then
    (pyInt ((low0 : ℚ) * (9/10)), pyInt ((high0 : ℚ) * (85/100)))
  else (low0, high0)

/-- Modelled from the spec's words for claim C9: `knapsackSelect` with the
second fallback (the upward scan of lines 132-134) removed; everything else
is identical. -/
def knapsackSelectNoUpward (items : List Item) (daily_mins fatigue_score : ℚ) :
    List ChosenSeg × ℚ :=
  let total_available_time := (items.map fun it => it.mins).sum
  let lw := budgetWindow daily_mins fatigue_score
  let low_u := lw.1
  let high_u := lw.2
  if from_units low_u > total_available_time then
    (items.map toChosen, total_available_time)
  else
    let scaled := mkScaled items
    let cap : ℤ := min ((scaled.map fun sc => sc.u).sum) high_u
    let d := buildDp cap.toNat scaled
    let best0 := primaryBest d low_u cap
    let best := if best0 = -1 then fallbackDown d low_u else best0
    if best ≤ 0 then ([], 0)
    else
      let bt := backtrackAux scaled d (cap.toNat + 1) best []
      let chosen := bt.1.map fun i => toChosen (pyIdx scaled i).it
      (chosen, (chosen.map fun c => c.mins).sum)

/-- `recommend_segments` with the upward-scan fallback removed (claim C9). -/
def recommend_segments_noUpward (lectures : List Lecture) (daily_mins fatigue_score : ℚ)
    (completed_courses : List Completed) (selected_lectures : Option (List String)) :
    Except PyError (List ChosenSeg × ℚ) := do
  let items0 ← flatten_segments lectures
  if items0.isEmpty then return ([], 0)
  let items1 := completedFilter completed_courses items0
  let items2 := scopeFilter selected_lectures items1
  if items2.isEmpty then return ([], 0)
  let items3 := orderGate items2
  if items3.isEmpty then return ([], 0)
  return knapsackSelectNoUpward items3 daily_mins fatigue_score

/-- The unit weight of the `i`-th eligible item (as the selector computes it). -/
def uOf (items : List Item) (i : ℕ) : ℤ :=
  to_units (items.getD i dummyItem).mins

/-- `s` is a subset-sum of the eligible items' unit weights. -/
def ReachableU (items : List Item) (s : ℤ) : Prop :=
  ∃ S : Finset ℕ, S ⊆ Finset.range items.length ∧ (∑ i ∈ S, uOf items i) = s

/-- Claim C1, formalised.  With `low_u`/`cap` as the selector computes them,
the selector returns (as an index list without repetition) a subset of the
eligible segments together with the exact sum of their true minute durations,
and the subset's unit weights sum to the largest reachable capacity in
`[low_u, cap]` when one exists, otherwise to the largest reachable capacity
strictly below `low_u`. -/
def C1Spec (items : List Item) (daily_mins fatigue_score : ℚ) : Prop :=
  let lw := budgetWindow daily_mins fatigue_score
  let low_u := lw.1
  let cap : ℤ := min (((mkScaled items).map fun sc => sc.u).sum) lw.2
  let res := knapsackSelect items daily_mins fatigue_score
  ∃ l : List ℕ, l.Nodup ∧ (∀ i ∈ l, i < items.length) ∧
    res.1 = l.map (fun i => toChosen (items.getD i dummyItem)) ∧
    res.2 = (l.map fun i => (items.getD i dummyItem).mins).sum ∧
    ((∃ s, ReachableU items s ∧ low_u ≤ s ∧ s ≤ cap) →
      IsGreatest {s | ReachableU items s ∧ low_u ≤ s ∧ s ≤ cap}
        ((l.map (uOf items)).sum)) ∧
    (¬ (∃ s, ReachableU items s ∧ low_u ≤ s ∧ s ≤ cap) →
      IsGreatest {s | ReachableU items s ∧ s < low_u}
        ((l.map (uOf items)).sum))

/-! ### Basic facts about the Python numeric helpers -/

theorem pyRound_sub_abs_le (x : ℚ) : |(pyRound x : ℚ) - x| ≤ 1/2 := by
  have hfr : (Int.fract x) = x - ⌊x⌋ := rfl
  have h0 : 0 ≤ Int.fract x := Int.fract_nonneg x
  have h1 : Int.fract x < 1 := Int.fract_lt_one x
  unfold pyRound
  split_ifs with hc1 hc2 hc3 <;>
    (rw [abs_le]; constructor <;> [skip; skip] <;> push_cast <;> linarith)

theorem pyRound_nonneg {x : ℚ} (h : 0 ≤ x) : 0 ≤ pyRound x := by
  have hfl : (0:ℤ) ≤ ⌊x⌋ := Int.floor_nonneg.2 h
  unfold pyRound
  split_ifs <;> omega

theorem pyRound_nonpos {x : ℚ} (h : x ≤ 0) : pyRound x ≤ 0 := by
  have habs := pyRound_sub_abs_le x
  rw [abs_le] at habs
  have h2 : (pyRound x : ℚ) < 1 := by linarith [habs.2]
  have h3 : pyRound x < 1 := by exact_mod_cast h2
  omega

theorem pyInt_nonneg {x : ℚ} (h : 0 ≤ x) : 0 ≤ pyInt x := by
  unfold pyInt
  rw [if_pos h]
  exact Int.floor_nonneg.2 h

theorem pyInt_of_nonneg {x : ℚ} (h : 0 ≤ x) : pyInt x = ⌊x⌋ := by
  unfold pyInt
  rw [if_pos h]

theorem to_units_nonneg (m : ℚ) : 0 ≤ to_units m := le_max_left _ _

theorem to_units_of_nonneg {m : ℚ} (h : 0 ≤ m) : to_units m = pyRound (m * SCALE) := by
  unfold to_units
  exact max_eq_right (pyRound_nonneg (mul_nonneg h (by norm_num [SCALE])))

/-! ### Claim C7: the unit round-trip bound -/

/-- C7 counterexample: at `m = 1/20` (= 0.05 minutes) the round-trip error is
exactly `0.05`, so the strict bound `< 0.05` claimed by the spec fails. -/
theorem c7_roundtrip_strict_counterexample :
    ¬ (|from_units (to_units ((1:ℚ)/20)) - 1/20| < 1/20) := by
  have h1 : to_units ((1:ℚ)/20) = 0 := by
    norm_num [to_units, pyRound, SCALE, Int.fract]
  have h2 : from_units 0 = 0 := by norm_num [from_units, SCALE]
  rw [h1, h2, zero_sub, abs_neg, abs_of_nonneg (by norm_num : (0:ℚ) ≤ 1/20)]
  norm_num

/-- C7 (amended): for every `m ≥ 0`,
`|from_units (to_units m) - m| ≤ 0.05`; the bound is attained, so `≤` cannot
be improved to `<`. -/
theorem c7_roundtrip_abs_le (m : ℚ) (h : 0 ≤ m) :
    |from_units (to_units m) - m| ≤ 1/20 := by
  rw [to_units_of_nonneg h]
  have h2 : |((pyRound (m * SCALE) : ℚ) - m * SCALE)| ≤ 1/2 := pyRound_sub_abs_le _
  have key : from_units (pyRound (m * SCALE)) - m
      = ((pyRound (m * SCALE) : ℚ) - m * SCALE) / 10 := by
    unfold from_units SCALE
    ring
  rw [key, abs_div, abs_of_nonneg (by norm_num : (0:ℚ) ≤ 10)]
  have h3 := (div_le_div_iff_of_pos_right (by norm_num : (0:ℚ) < 10)).mpr h2
  linarith

/-- Witness for `c7_roundtrip_abs_le` at `m = 3/10`. -/
theorem c7_roundtrip_abs_le_witness :
    0 ≤ (3:ℚ)/10 ∧ |from_units (to_units ((3:ℚ)/10)) - 3/10| ≤ 1/20 :=
  ⟨by norm_num, c7_roundtrip_abs_le ((3:ℚ)/10) (by norm_num)⟩

/-! ### Claim C2: the fatigue derating thresholds are chained, not independent -/

/-- C2 counterexample: at `daily_minutes_target = 10`, `fatigue_score = 0.9`
the source computes `(56, 77)` while the claimed independent evaluation gives
`(63, 91)`. -/
theorem c2_derating_counterexample :
    budgetWindow 10 (9/10) ≠ independentBudgetWindow 10 (9/10) := by
  have h1 : budgetWindow 10 (9/10) = (56, 77) := by
    norm_num [budgetWindow, to_units, pyRound, pyInt, SCALE, Int.fract]
  have h2 : independentBudgetWindow 10 (9/10) = (63, 91) := by
    norm_num [independentBudgetWindow, to_units, pyRound, pyInt, SCALE, Int.fract]
  rw [h1, h2]
  decide

/-- C2 (amended): for `fatigue_score > 0.8` both threshold adjustments apply
in sequence — the 0.8-threshold multipliers act on the values already reduced
by the 0.6 threshold, not on the original `low/high`. -/
theorem c2_derating_chained (d f : ℚ) (h : f > 8/10) :
    budgetWindow d f =
      (pyInt ((pyInt ((to_units (d * (7/10)) : ℚ) * (9/10)) : ℚ) * (9/10)),
       pyInt ((pyInt ((to_units (d * (13/10)) : ℚ) * (85/100)) : ℚ) * (7/10))) := by
  have h6 : f > 6/10 := lt_trans (by norm_num) h
  simp only [budgetWindow, if_pos h, if_pos h6]

/-- Witness for `c2_derating_chained` at `d = 10`, `f = 9/10`. -/
theorem c2_derating_chained_witness :
    (9:ℚ)/10 > 8/10 ∧
      budgetWindow 10 (9/10) =
        (pyInt ((pyInt ((to_units ((10:ℚ) * (7/10)) : ℚ) * (9/10)) : ℚ) * (9/10)),
         pyInt ((pyInt ((to_units ((10:ℚ) * (13/10)) : ℚ) * (85/100)) : ℚ) * (7/10))) :=
  ⟨by norm_num, c2_derating_chained 10 (9/10) (by norm_num)⟩

/-! ### Claim C8: the streak increments at most once per day -/

/-- C8: starting from a state already active today, two successive
`update_streak` calls on the same day whose running totals both reach the
daily target increment `current` at most once. -/
theorem c8_streak_single_increment (today : String) (t : ℚ) (s : Streak) (m1 m2 : ℚ)
    (hd : s.last_date = some today)
    (h1 : t ≤ (update_streak today t s m1).minutes_today)
    (h2 : t ≤ (update_streak today t (update_streak today t s m1) m2).minutes_today) :
    (update_streak today t (update_streak today t s m1) m2).current ≤ s.current + 1 := by
  simp only [update_streak, hd, ne_eq, Option.some.injEq, not_true_eq_false, if_false,
    ge_iff_le] at h1 h2 ⊢
  split_ifs with hA hB hB <;> simp_all <;> linarith

/-- Witness for `c8_streak_single_increment`: target 15, already-active state,
increments 20 and 5 (both calls end at/above the target). -/
theorem c8_streak_single_increment_witness :
    (⟨0, some "d", 0, 0⟩ : Streak).last_date = some "d" ∧
      (15:ℚ) ≤ (update_streak "d" 15 ⟨0, some "d", 0, 0⟩ 20).minutes_today ∧
      (15:ℚ) ≤ (update_streak "d" 15 (update_streak "d" 15 ⟨0, some "d", 0, 0⟩ 20) 5).minutes_today ∧
      (update_streak "d" 15 (update_streak "d" 15 ⟨0, some "d", 0, 0⟩ 20) 5).current ≤
        (⟨0, some "d", 0, 0⟩ : Streak).current + 1 := by
  have hd : (⟨0, some "d", 0, 0⟩ : Streak).last_date = some "d" := rfl
  have h1 : (15:ℚ) ≤ (update_streak "d" 15 ⟨0, some "d", 0, 0⟩ 20).minutes_today := by
    norm_num [update_streak]
  have h2 : (15:ℚ) ≤
      (update_streak "d" 15 (update_streak "d" 15 ⟨0, some "d", 0, 0⟩ 20) 5).minutes_today := by
    norm_num [update_streak]
  exact ⟨hd, h1, h2, c8_streak_single_increment "d" 15 ⟨0, some "d", 0, 0⟩ 20 5 hd h1 h2⟩

/-! ### Claim C3: what flattening actually does on malformed segments -/

theorem flattenLec_error_iff (li : ℕ) (title : Option String) (si : ℕ) (segs : List Seg) :
    (∃ e, flattenLec li title si segs = .error e) ↔ ∃ seg ∈ segs, seg.mins = none := by
  induction segs generalizing si with
  | nil => simp [flattenLec]
  | cons seg rest ih =>
    cases hm : seg.mins with
    | none =>
      simp only [flattenLec, hm]
      exact iff_of_true ⟨.typeError, by trivial⟩ ⟨seg, List.mem_cons_self seg rest, hm⟩
    | some m =>
      simp only [flattenLec, hm, List.mem_cons]
      cases hr : flattenLec li title (si + 1) rest with
      | error e =>
        have hrec : ∃ seg2 ∈ rest, seg2.mins = none := (ih (si + 1)).mp ⟨e, hr⟩
        simp only [Except.map]
        constructor
        · intro _
          exact ⟨hrec.choose, Or.inr hrec.choose_spec.1, hrec.choose_spec.2⟩
        · intro _
          exact ⟨e, by trivial⟩
      | ok items =>
        have hrec : ¬ ∃ seg2 ∈ rest, seg2.mins = none := by
          rw [← ih (si + 1)]
          simp [hr]
        simp only [Except.map]
        constructor
        · rintro ⟨e, he⟩
          cases he
        · rintro ⟨seg2, hmem, hnone⟩
          rcases hmem with h | h
          · subst h; rw [hm] at hnone; cases hnone
          · exact absurd ⟨seg2, h, hnone⟩ hrec

theorem flattenAux_error_iff (li : ℕ) (lectures : List Lecture) :
    (∃ e, flattenAux li lectures = .error e) ↔
      ∃ lec ∈ lectures, ∃ seg ∈ lec.segments, seg.mins = none := by
  induction lectures generalizing li with
  | nil => simp [flattenAux]
  | cons lec rest ih =>
    simp only [flattenAux, bind, Except.bind, List.mem_cons]
    cases h1 : flattenLec li lec.title 0 lec.segments with
    | error e =>
      have hhead : ∃ seg ∈ lec.segments, seg.mins = none :=
        (flattenLec_error_iff li lec.title 0 lec.segments).mp ⟨e, h1⟩
      constructor
      · intro _
        exact ⟨lec, Or.inl rfl, hhead⟩
      · intro _
        exact ⟨e, rfl⟩
    | ok items =>
      have hhead : ¬ ∃ seg ∈ lec.segments, seg.mins = none := by
        rw [← flattenLec_error_iff li lec.title 0]
        simp [h1]
      cases h2 : flattenAux (li + 1) rest with
      | error e =>
        have hrec : ∃ lec2 ∈ rest, ∃ seg ∈ lec2.segments, seg.mins = none :=
          (ih (li + 1)).mp ⟨e, h2⟩
        constructor
        · intro _
          exact ⟨hrec.choose, Or.inr hrec.choose_spec.1, hrec.choose_spec.2⟩
        · intro _
          exact ⟨e, rfl⟩
      | ok tail =>
        have hrec : ¬ ∃ lec2 ∈ rest, ∃ seg ∈ lec2.segments, seg.mins = none := by
          rw [← ih (li + 1)]
          simp [h2]
        constructor
        · rintro ⟨e, he⟩
          cases he
        · rintro ⟨lec2, hmem, hseg⟩
          rcases hmem with h | h
          · subst h; exact absurd hseg hhead
          · exact absurd ⟨lec2, h, hseg⟩ hrec

/-- C3 counterexample: a segment lacking the `topic` field does *not* make
`flatten_segments` fail — the missing topic is silently carried as `None`
(so in particular no `MalformedSegmentError` is raised; that class does not
exist in the source). -/
theorem c3_missing_topic_no_error :
    flatten_segments [⟨some "L", [⟨none, some 5, none, none⟩]⟩] =
      .ok [⟨"0-0", 0, some "L", none, 5, 3, 1⟩] := rfl

/-- C3 (amended): `flatten_segments` fails — with the modelled Python
`TypeError` from `float(None)`, not a `MalformedSegmentError` — exactly when
some segment lacks `mins`; a missing `topic` never causes a failure and is
silently defaulted to `None`. -/
theorem c3_flatten_error_iff_missing_mins (lectures : List Lecture) :
    (∃ e, flatten_segments lectures = .error e) ↔
      ∃ lec ∈ lectures, ∃ seg ∈ lec.segments, seg.mins = none :=
  flattenAux_error_iff 0 lectures

/-! ### Claim C5: the soft-order gate -/

theorem gateScan_subset : ∀ (l : List Item) (avail : Finset ℤ) (s : Item),
    s ∈ gateScan l avail → s ∈ l := by
  intro l
  induction l with
  | nil => intro avail s hs; simp [gateScan] at hs
  | cons a rest ih =>
    intro avail s hs
    by_cases h : a.order = 1 ∨ a.order ∈ avail
    · rw [gateScan, if_pos h] at hs
      rcases List.mem_cons.mp hs with rfl | hs2
      · exact List.mem_cons_self _ _
      · exact List.mem_cons_of_mem a (ih _ s hs2)
    · rw [gateScan, if_neg h] at hs
      exact List.mem_cons_of_mem a (ih _ s hs)

/-- Soundness of the frontier scan: any kept segment of order `≥ 2` has all
orders `1 .. order-1` present in the reference list `l0`. -/
theorem gateScan_order_sound (l0 : List Item) :
    ∀ (l : List Item) (avail : Finset ℤ),
      (∀ s, s ∈ l → s ∈ l0) →
      (∀ o : ℤ, o ∈ avail →
        o = 1 ∨ (2 ≤ o ∧ ∀ j : ℤ, 1 ≤ j → j < o → ∃ s2 ∈ l0, s2.order = j)) →
      ∀ s ∈ gateScan l avail,
        s.order = 1 ∨ (2 ≤ s.order ∧ ∀ j : ℤ, 1 ≤ j → j < s.order →
          ∃ s2 ∈ l0, s2.order = j) := by
  intro l
  induction l with
  | nil => intro avail _ _ s hs; simp [gateScan] at hs
  | cons a rest ih =>
    intro avail hsub havail s hs
    by_cases h : a.order = 1 ∨ a.order ∈ avail
    · rw [gateScan, if_pos h] at hs
      rcases List.mem_cons.mp hs with rfl | hs2
      · rcases h with h1 | h2
        · exact Or.inl h1
        · exact havail _ h2
      · refine ih (insert (a.order + 1) avail)
          (fun s2 h2 => hsub s2 (List.mem_cons_of_mem a h2)) ?_ s hs2
        intro o ho
        rcases Finset.mem_insert.mp ho with rfl | ho2
        · have hmem : a ∈ l0 := hsub a (List.mem_cons_self a rest)
          rcases h with h1 | h2
          · right
            refine ⟨by omega, ?_⟩
            intro j hj1 hj2
            have hj : j = 1 := by omega
            subst hj
            exact ⟨a, hmem, h1⟩
          · rcases havail _ h2 with h3 | ⟨h3, h4⟩
            · right
              refine ⟨by omega, ?_⟩
              intro j hj1 hj2
              have hj : j = 1 := by omega
              subst hj
              exact ⟨a, hmem, by omega⟩
            · right
              refine ⟨by omega, ?_⟩
              intro j hj1 hj2
              by_cases hje : j < a.order
              · exact h4 j hj1 hje
              · have hj : j = a.order := by omega
                subst hj
                exact ⟨a, hmem, rfl⟩
        · exact havail _ ho2
    · rw [gateScan, if_neg h] at hs
      exact ih avail (fun s2 h2 => hsub s2 (List.mem_cons_of_mem a h2)) havail s hs

/-- Gate soundness lifted to `orderGate`. -/
theorem orderGate_order_sound (items : List Item) (s : Item) (hs : s ∈ orderGate items) :
    s ∈ items ∧ (s.order = 1 ∨ (2 ≤ s.order ∧ ∀ j : ℤ, 1 ≤ j → j < s.order →
      ∃ s2 ∈ items, s2.lecture_title = s.lecture_title ∧ s2.order = j)) := by
  obtain ⟨t, ht, hmem⟩ := List.mem_flatMap.mp hs
  have hsorted_sub : ∀ x, x ∈ sortByOrder (segsOf items t) → x ∈ segsOf items t := by
    intro x hx
    exact ((List.perm_insertionSort _ _).mem_iff).mp hx
  have hsub0 : ∀ x, x ∈ segsOf items t → x ∈ items ∧ x.lecture_title = t := by
    intro x hx
    have h2 := List.mem_filter.mp hx
    exact ⟨h2.1, of_decide_eq_true h2.2⟩
  have hmem2 := gateScan_subset _ _ s hmem
  have hs_in : s ∈ segsOf items t := hsorted_sub s hmem2
  refine ⟨(hsub0 s hs_in).1, ?_⟩
  have hmain := gateScan_order_sound (segsOf items t) (sortByOrder (segsOf items t)) {1}
    hsorted_sub (fun o ho => Or.inl (Finset.mem_singleton.mp ho)) s hmem
  rcases hmain with h | ⟨h1, h2⟩
  · exact Or.inl h
  · right
    refine ⟨h1, ?_⟩
    intro j hj1 hj2
    obtain ⟨s2, hs2mem, hs2ord⟩ := h2 j hj1 hj2
    have h3 := hsub0 s2 hs2mem
    exact ⟨s2, h3.1, by rw [h3.2, (hsub0 s hs_in).2], hs2ord⟩

/-- C5: (i) the gate only unlocks an order `≥ 2` if every lower order is
present among the lecture's (uncompleted) segments; (ii) for a lecture with
orders `[2,1,3]` all three segments pass the gate (in ascending order);
(iii) for a lecture with orders `[1,3]` the order-3 segment is gated out. -/
theorem c5_soft_order_gate :
    (∀ (items : List Item) (s : Item), s ∈ orderGate items →
        s.order = 1 ∨ (2 ≤ s.order ∧ ∀ j : ℤ, 1 ≤ j → j < s.order →
          ∃ s2 ∈ items, s2.lecture_title = s.lecture_title ∧ s2.order = j)) ∧
    orderGate [⟨"0-0", 0, some "L", some "a", 5, 3, 2⟩,
               ⟨"0-1", 0, some "L", some "b", 5, 3, 1⟩,
               ⟨"0-2", 0, some "L", some "c", 5, 3, 3⟩] =
      [⟨"0-1", 0, some "L", some "b", 5, 3, 1⟩,
       ⟨"0-0", 0, some "L", some "a", 5, 3, 2⟩,
       ⟨"0-2", 0, some "L", some "c", 5, 3, 3⟩] ∧
    orderGate [⟨"0-0", 0, some "L", some "a", 5, 3, 1⟩,
               ⟨"0-1", 0, some "L", some "b", 5, 3, 3⟩] =
      [⟨"0-0", 0, some "L", some "a", 5, 3, 1⟩] :=
  ⟨fun items s hs => (orderGate_order_sound items s hs).2, rfl, rfl⟩

/-- Witness for the quantified part of `c5_soft_order_gate`, instantiated at
the order-2 segment of the `[2,1,3]` lecture. -/
theorem c5_soft_order_gate_witness :
    (⟨"0-0", 0, some "L", some "a", 5, 3, 2⟩ : Item) ∈
      orderGate [⟨"0-0", 0, some "L", some "a", 5, 3, 2⟩,
                 ⟨"0-1", 0, some "L", some "b", 5, 3, 1⟩,
                 ⟨"0-2", 0, some "L", some "c", 5, 3, 3⟩] ∧
    ((⟨"0-0", 0, some "L", some "a", 5, 3, 2⟩ : Item).order = 1 ∨
      (2 ≤ (⟨"0-0", 0, some "L", some "a", 5, 3, 2⟩ : Item).order ∧
        ∀ j : ℤ, 1 ≤ j → j < (⟨"0-0", 0, some "L", some "a", 5, 3, 2⟩ : Item).order →
          ∃ s2 ∈ ([⟨"0-0", 0, some "L", some "a", 5, 3, 2⟩,
                  ⟨"0-1", 0, some "L", some "b", 5, 3, 1⟩,
                  ⟨"0-2", 0, some "L", some "c", 5, 3, 3⟩] : List Item),
            s2.lecture_title = (⟨"0-0", 0, some "L", some "a", 5, 3, 2⟩ : Item).lecture_title ∧
              s2.order = j)) := by
  have hmem : (⟨"0-0", 0, some "L", some "a", 5, 3, 2⟩ : Item) ∈
      orderGate [⟨"0-0", 0, some "L", some "a", 5, 3, 2⟩,
                 ⟨"0-1", 0, some "L", some "b", 5, 3, 1⟩,
                 ⟨"0-2", 0, some "L", some "c", 5, 3, 3⟩] := by
    rw [c5_soft_order_gate.2.1]
    exact List.mem_cons_of_mem _ (List.mem_cons_self _ _)
  exact ⟨hmem, c5_soft_order_gate.1 _ _ hmem⟩

/-! ### The knapsack dp array: characterisation of one pass -/

theorem mem_descRange {cap w s : ℕ} : s ∈ descRange cap w ↔ w ≤ s ∧ s ≤ cap := by
  unfold descRange
  rw [List.mem_reverse, List.mem_range'_1]
  omega

theorem descRange_pairwise (cap w : ℕ) : (descRange cap w).Pairwise (· > ·) := by
  unfold descRange
  rw [List.pairwise_reverse]
  exact List.pairwise_lt_range' w (cap + 1 - w) 1

theorem dpStep_apply_ne (i : ℤ) (w : ℕ) (d : ℕ → ℤ) (a t : ℕ) (h : t ≠ a) :
    dpStep i w d a t = d t := by
  unfold dpStep
  split_ifs with h1
  · exact Function.update_noteq h _ _
  · rfl

theorem dpStep_apply_self (i : ℤ) (w : ℕ) (d : ℕ → ℤ) (a : ℕ) :
    dpStep i w d a a = if d a = -1 ∧ d (a - w) ≠ -1 then i else d a := by
  unfold dpStep
  split_ifs with h1
  · exact Function.update_same a i d
  · rfl

theorem foldl_dpStep_eq (i : ℤ) (w : ℕ) (hw : 1 ≤ w) :
    ∀ (L : List ℕ), L.Pairwise (· > ·) → (∀ s ∈ L, w ≤ s) →
      ∀ d : ℕ → ℤ, L.foldl (dpStep i w) d =
        fun s => if s ∈ L ∧ d s = -1 ∧ d (s - w) ≠ -1 then i else d s := by
  intro L
  induction L with
  | nil =>
    intro _ _ d
    funext s
    simp
  | cons a rest ih =>
    intro hpw hws d
    have ha : ∀ x ∈ rest, x < a := fun x hx => (List.pairwise_cons.mp hpw).1 x hx
    have hrest := (List.pairwise_cons.mp hpw).2
    have hwrest : ∀ s ∈ rest, w ≤ s := fun s hs => hws s (List.mem_cons_of_mem a hs)
    rw [List.foldl_cons, ih hrest hwrest]
    funext s
    by_cases hsrest : s ∈ rest
    · have hlt : s < a := ha s hsrest
      have hsw : w ≤ s := hwrest s hsrest
      have h1 : dpStep i w d a s = d s := dpStep_apply_ne i w d a s (by omega)
      have h2 : dpStep i w d a (s - w) = d (s - w) :=
        dpStep_apply_ne i w d a (s - w) (by omega)
      simp only [h1, h2]
      have hmem : s ∈ a :: rest := List.mem_cons_of_mem a hsrest
      by_cases hc : d s = -1 ∧ d (s - w) ≠ -1
      · rw [if_pos ⟨hsrest, hc⟩, if_pos ⟨hmem, hc⟩]
      · rw [if_neg (fun h => hc h.2), if_neg (fun h => hc h.2)]
    · by_cases hsa : s = a
      · subst hsa
        have hwa : w ≤ s := hws s (List.mem_cons_self s rest)
        have h2 : dpStep i w d s (s - w) = d (s - w) :=
          dpStep_apply_ne i w d s (s - w) (by omega)
        simp only [h2, dpStep_apply_self]
        rw [if_neg (fun h => hsrest h.1)]
        by_cases hc : d s = -1 ∧ d (s - w) ≠ -1
        · rw [if_pos hc, if_pos ⟨List.mem_cons_self s rest, hc⟩]
        · rw [if_neg hc, if_neg (fun h => hc h.2)]
      · have h1 : dpStep i w d a s = d s := dpStep_apply_ne i w d a s hsa
        simp only [h1]
        rw [if_neg (fun h => hsrest h.1),
          if_neg (fun h => (List.mem_cons.mp h.1).elim hsa hsrest)]

theorem dpPass_apply (cap : ℕ) (i : ℤ) (w : ℕ) (hw : 1 ≤ w) (d : ℕ → ℤ) (s : ℕ) :
    dpPass cap i w d s =
      if (w ≤ s ∧ s ≤ cap) ∧ d s = -1 ∧ d (s - w) ≠ -1 then i else d s := by
  unfold dpPass
  rw [foldl_dpStep_eq i w hw (descRange cap w) (descRange_pairwise cap w)
    (fun t ht => (mem_descRange.mp ht).1) d]
  simp only []
  by_cases hc : (w ≤ s ∧ s ≤ cap) ∧ d s = -1 ∧ d (s - w) ≠ -1
  · rw [if_pos hc, if_pos ⟨mem_descRange.mpr hc.1, hc.2⟩]
  · rw [if_neg hc, if_neg (fun h => hc ⟨mem_descRange.mp h.1, h.2⟩)]

/-! ### The dp fold as an index recursion, and its invariant -/

/-- `buildDp` re-expressed one item index at a time. -/
def dpIter (cap : ℕ) (scaled : List Scaled) : ℕ → (ℕ → ℤ)
  | 0 => fun s => if s = 0 then -2 else -1
  | k + 1 =>
    let d := dpIter cap scaled k
    let sc := scaled.getD k dummyScaled
    if sc.u ≤ 0 then d else dpPass cap (k : ℤ) sc.u.toNat d

theorem dpIter_congr (cap : ℕ) : ∀ (k : ℕ) (s1 s2 : List Scaled),
    (∀ m, m < k → s1.getD m dummyScaled = s2.getD m dummyScaled) →
    dpIter cap s1 k = dpIter cap s2 k := by
  intro k
  induction k with
  | zero => intro s1 s2 _; rfl
  | succ k ih =>
    intro s1 s2 hag
    show (let d := dpIter cap s1 k
          let sc := s1.getD k dummyScaled
          if sc.u ≤ 0 then d else dpPass cap (k : ℤ) sc.u.toNat d) = _
    rw [ih s1 s2 (fun m hm => hag m (by omega)), hag k (by omega)]
    rfl

theorem buildDp_eq_dpIter (cap : ℕ) (scaled : List Scaled) :
    buildDp cap scaled = dpIter cap scaled scaled.length := by
  induction scaled using List.reverseRecOn with
  | nil => rfl
  | append_singleton xs x ih =>
    have henum : (xs ++ [x]).enum = xs.enum ++ [(xs.length, x)] := by
      rw [List.enum_append]
      simp [List.enumFrom]
    have hgetlast : (xs ++ [x]).getD xs.length dummyScaled = x := by
      rw [List.getD_eq_getElem?_getD, List.getElem?_concat_length]
      rfl
    have hagree : ∀ m, m < xs.length →
        (xs ++ [x]).getD m dummyScaled = xs.getD m dummyScaled := by
      intro m hm
      rw [List.getD_eq_getElem?_getD, List.getD_eq_getElem?_getD,
        List.getElem?_append_left hm]
    rw [buildDp, henum, List.foldl_append]
    have hxs : xs.enum.foldl
        (fun d p => if p.2.u ≤ 0 then d else dpPass cap (p.1 : ℤ) p.2.u.toNat d)
        (fun s => if s = 0 then -2 else -1) = dpIter cap xs xs.length := by
      rw [← buildDp, ih]
    rw [hxs]
    have hlen : (xs ++ [x]).length = xs.length + 1 := by simp
    rw [hlen]
    show _ = dpIter cap (xs ++ [x]) (xs.length + 1)
    rw [show dpIter cap (xs ++ [x]) (xs.length + 1) =
        (let d := dpIter cap (xs ++ [x]) xs.length
         let sc := (xs ++ [x]).getD xs.length dummyScaled
         if sc.u ≤ 0 then d else dpPass cap (xs.length : ℤ) sc.u.toNat d) from rfl]
    rw [dpIter_congr cap xs.length (xs ++ [x]) xs hagree, hgetlast]
    simp only [List.foldl_cons, List.foldl_nil]

/-- The unit weight the selector associates with item index `i`. -/
def wOf (scaled : List Scaled) (i : ℕ) : ℤ :=
  (scaled.getD i dummyScaled).u

/-- `z` is the unit-weight sum of a subset of the first `k` items. -/
def ReachK (scaled : List Scaled) (k : ℕ) (z : ℤ) : Prop :=
  ∃ S : Finset ℕ, S ⊆ Finset.range k ∧ (∑ i ∈ S, wOf scaled i) = z

theorem wOf_nonneg (scaled : List Scaled) (hw : ∀ sc ∈ scaled, 0 ≤ sc.u) (i : ℕ) :
    0 ≤ wOf scaled i := by
  unfold wOf
  by_cases h : i < scaled.length
  · rw [List.getD_eq_getElem scaled dummyScaled h]
    exact hw _ (List.getElem_mem h)
  · rw [List.getD_eq_default scaled dummyScaled (by omega)]
    norm_num [dummyScaled]

theorem reachK_zero (scaled : List Scaled) (k : ℕ) : ReachK scaled k 0 :=
  ⟨∅, Finset.empty_subset _, Finset.sum_empty⟩

theorem reachK_mono (scaled : List Scaled) {k1 k2 : ℕ} (h : k1 ≤ k2) {z : ℤ}
    (hr : ReachK scaled k1 z) : ReachK scaled k2 z := by
  obtain ⟨S, hs, hsum⟩ := hr
  exact ⟨S, hs.trans (Finset.range_subset.mpr h), hsum⟩

theorem reachK_nonneg (scaled : List Scaled) (hw : ∀ sc ∈ scaled, 0 ≤ sc.u)
    {k : ℕ} {z : ℤ} (hr : ReachK scaled k z) : 0 ≤ z := by
  obtain ⟨S, _, hsum⟩ := hr
  rw [← hsum]
  exact Finset.sum_nonneg fun i _ => wOf_nonneg scaled hw i

/-- The invariant of the dp array after the first `k` items were processed. -/
structure DpInv (scaled : List Scaled) (cap k : ℕ) (d : ℕ → ℤ) : Prop where
  base : d 0 = -2
  codom : ∀ s : ℕ, 1 ≤ s → d s = -1 ∨ ∃ i : ℕ, i < k ∧ d s = (i : ℤ)
  sound : ∀ s : ℕ, 1 ≤ s → d s ≠ -1 → s ≤ cap ∧ ReachK scaled k (s : ℤ)
  complete : ∀ s : ℕ, s ≤ cap → ReachK scaled k (s : ℤ) → d s ≠ -1
  chain : ∀ s i : ℕ, d s = (i : ℤ) →
    0 < wOf scaled i ∧ (wOf scaled i).toNat ≤ s ∧
      d (s - (wOf scaled i).toNat) ≠ -1 ∧ d (s - (wOf scaled i).toNat) < (i : ℤ)

theorem dpInv_zero (scaled : List Scaled) (cap : ℕ) :
    DpInv scaled cap 0 (fun s => if s = 0 then -2 else -1) := by
  constructor
  · simp
  · intro s hs
    left
    rw [if_neg (by omega)]
  · intro s hs hne
    rw [if_neg (by omega)] at hne
    exact absurd rfl hne
  · intro s _ hr
    obtain ⟨S, hsub, hsum⟩ := hr
    have hS : S = ∅ := Finset.subset_empty.mp (by simpa using hsub)
    subst hS
    rw [Finset.sum_empty] at hsum
    have hs0 : s = 0 := by exact_mod_cast hsum.symm
    subst hs0
    simp
  · intro s i h
    have hnn : (0:ℤ) ≤ (i:ℤ) := Int.natCast_nonneg i
    by_cases hs : s = 0 <;> simp [hs] at h <;> omega

theorem dpInv_pass (scaled : List Scaled) (cap k : ℕ) (d : ℕ → ℤ)
    (hw : ∀ sc ∈ scaled, 0 ≤ sc.u) (hinv : DpInv scaled cap k d)
    (hu : 0 < wOf scaled k) :
    DpInv scaled cap (k + 1) (dpPass cap (k : ℤ) (wOf scaled k).toNat d) := by
  have hw1 : 1 ≤ (wOf scaled k).toNat := by omega
  have hcast : ((wOf scaled k).toNat : ℤ) = wOf scaled k := Int.toNat_of_nonneg (le_of_lt hu)
  set wn := (wOf scaled k).toNat with hwn
  set d2 := dpPass cap (k : ℤ) wn d with hd2
  have happ : ∀ s, d2 s =
      if ((wn ≤ s ∧ s ≤ cap) ∧ d s = -1 ∧ d (s - wn) ≠ -1) then (k : ℤ) else d s :=
    fun s => dpPass_apply cap (k : ℤ) wn hw1 d s
  have hpre : ∀ s, d s ≠ -1 → d2 s = d s := by
    intro s hs
    rw [happ s, if_neg (fun hcon => hs hcon.2.1)]
  have hcase : ∀ s, d2 s = d s ∨
      (d s = -1 ∧ d2 s = (k : ℤ) ∧ wn ≤ s ∧ s ≤ cap ∧ d (s - wn) ≠ -1) := by
    intro s
    by_cases hc : (wn ≤ s ∧ s ≤ cap) ∧ d s = -1 ∧ d (s - wn) ≠ -1
    · exact Or.inr ⟨hc.2.1, by rw [happ s, if_pos hc], hc.1.1, hc.1.2, hc.2.2⟩
    · exact Or.inl (by rw [happ s, if_neg hc])
  constructor
  · have h0 : d2 0 = d 0 := by
      rw [happ 0, if_neg]
      intro hcon
      exact absurd hcon.1.1 (by omega)
    rw [h0, hinv.base]
  · intro s hs
    rcases hcase s with h | ⟨_, hv, _⟩
    · rcases hinv.codom s hs with h2 | ⟨i, hi, hvi⟩
      · exact Or.inl (h.trans h2)
      · exact Or.inr ⟨i, by omega, h.trans hvi⟩
    · exact Or.inr ⟨k, by omega, hv⟩
  · intro s hs hne
    rcases hcase s with h | ⟨hds, hv, hws, hscap, hprev⟩
    · have hdne : d s ≠ -1 := fun he => hne (h.trans he)
      obtain ⟨hcap2, hr⟩ := hinv.sound s hs hdne
      exact ⟨hcap2, reachK_mono scaled (by omega) hr⟩
    · refine ⟨hscap, ?_⟩
      by_cases hz : s - wn = 0
      · have hswn : s = wn := by omega
        refine ⟨{k}, ?_, ?_⟩
        · intro x hx
          rw [Finset.mem_singleton] at hx
          rw [Finset.mem_range]
          omega
        · rw [Finset.sum_singleton]
          rw [show ((s:ℕ) : ℤ) = (wn : ℤ) from by omega, hcast]
      · have hz1 : 1 ≤ s - wn := by omega
        obtain ⟨hcap2, hr2⟩ := hinv.sound (s - wn) hz1 hprev
        obtain ⟨S, hsub, hsum⟩ := hr2
        have hkS : k ∉ S := fun hkk => by
          have hm := hsub hkk
          rw [Finset.mem_range] at hm
          omega
        refine ⟨insert k S, ?_, ?_⟩
        · intro x hx
          rcases Finset.mem_insert.mp hx with rfl | hx2
          · rw [Finset.mem_range]; omega
          · have hm := hsub hx2
            rw [Finset.mem_range] at hm ⊢
            omega
        · rw [Finset.sum_insert hkS, hsum]
          have hc2 : ((s - wn : ℕ) : ℤ) = (s : ℤ) - (wn : ℤ) := by omega
          rw [hc2]
          linarith [hcast]
  · intro s hscap hr
    obtain ⟨S, hsub, hsum⟩ := hr
    by_cases hk : k ∈ S
    · have h3 := Finset.sum_erase_add S (wOf scaled) hk
      have hsum2 : (∑ i ∈ S.erase k, wOf scaled i) = (s : ℤ) - wOf scaled k := by
        linarith
      have hsub2 : S.erase k ⊆ Finset.range k := by
        intro x hx
        have hx1 := Finset.mem_of_mem_erase hx
        have hx2 : x ≠ k := Finset.ne_of_mem_erase hx
        have hm := hsub hx1
        rw [Finset.mem_range] at hm ⊢
        omega
      have hz_nonneg : 0 ≤ (s : ℤ) - wOf scaled k :=
        hsum2 ▸ Finset.sum_nonneg fun i _ => wOf_nonneg scaled hw i
      have h4 : (wn : ℤ) ≤ (s : ℤ) := by
        rw [hcast]
        linarith
      have hws : wn ≤ s := by exact_mod_cast h4
      have hprev_reach : ReachK scaled k ((s - wn : ℕ) : ℤ) := by
        refine ⟨S.erase k, hsub2, ?_⟩
        have h5 : ((s - wn : ℕ) : ℤ) = (s : ℤ) - (wn : ℤ) := by omega
        rw [h5, hcast]
        exact hsum2
      have hdprev : d (s - wn) ≠ -1 := hinv.complete (s - wn) (by omega) hprev_reach
      by_cases hds : d s = -1
      · have hv : d2 s = (k : ℤ) := by
          rw [happ s, if_pos ⟨⟨hws, hscap⟩, hds, hdprev⟩]
        rw [hv]
        omega
      · rw [hpre s hds]
        exact hds
    · have hrk : ReachK scaled k (s : ℤ) := by
        refine ⟨S, ?_, hsum⟩
        intro x hx
        have hm := hsub hx
        rw [Finset.mem_range] at hm ⊢
        have hxk : x ≠ k := fun he => hk (he ▸ hx)
        omega
      have hd := hinv.complete s hscap hrk
      rw [hpre s hd]
      exact hd
  · intro s i hval
    rcases hcase s with h | ⟨hds, hv, hws, hscap, hprev⟩
    · obtain ⟨h1, h2, h3, h4⟩ := hinv.chain s i (h.symm.trans hval)
      refine ⟨h1, h2, ?_, ?_⟩
      · rw [hpre _ h3]; exact h3
      · rw [hpre _ h3]; exact h4
    · have hik : i = k := by
        have hik2 : (i : ℤ) = (k : ℤ) := hval.symm.trans hv
        exact_mod_cast hik2
      subst hik
      have hd2prev : d2 (s - wn) = d (s - wn) := hpre _ hprev
      refine ⟨hu, hws, ?_, ?_⟩
      · rw [hd2prev]; exact hprev
      · rw [hd2prev]
        by_cases hz : s - wn = 0
        · rw [hz, hinv.base]; omega
        · rcases hinv.codom (s - wn) (by omega) with hcc | ⟨i2, hi2, hv2⟩
          · exact absurd hcc hprev
          · rw [hv2]; exact_mod_cast hi2

theorem dpInv_buildDp (scaled : List Scaled) (cap : ℕ)
    (hw : ∀ sc ∈ scaled, 0 ≤ sc.u) :
    DpInv scaled cap scaled.length (buildDp cap scaled) := by
  rw [buildDp_eq_dpIter]
  have main : ∀ k, DpInv scaled cap k (dpIter cap scaled k) := by
    intro k
    induction k with
    | zero => exact dpInv_zero scaled cap
    | succ k ih =>
      show DpInv scaled cap (k + 1)
        (let d := dpIter cap scaled k
         let sc := scaled.getD k dummyScaled
         if sc.u ≤ 0 then d else dpPass cap (k : ℤ) sc.u.toNat d)
      by_cases hu : (scaled.getD k dummyScaled).u ≤ 0
      · show DpInv scaled cap (k + 1)
          (if (scaled.getD k dummyScaled).u ≤ 0 then dpIter cap scaled k
           else dpPass cap (k : ℤ) (scaled.getD k dummyScaled).u.toNat (dpIter cap scaled k))
        rw [if_pos hu]
        have hw0 : wOf scaled k = 0 :=
          le_antisymm hu (wOf_nonneg scaled hw k)
        constructor
        · exact ih.base
        · intro s hs
          rcases ih.codom s hs with h | ⟨i, hi, hv⟩
          · exact Or.inl h
          · exact Or.inr ⟨i, by omega, hv⟩
        · intro s hs hne
          obtain ⟨hcap2, hr⟩ := ih.sound s hs hne
          exact ⟨hcap2, reachK_mono scaled (by omega) hr⟩
        · intro s hscap hr
          obtain ⟨S, hsub, hsum⟩ := hr
          by_cases hk : k ∈ S
          · have h3 := Finset.sum_erase_add S (wOf scaled) hk
            apply ih.complete s hscap
            refine ⟨S.erase k, ?_, ?_⟩
            · intro x hx
              have hx1 := Finset.mem_of_mem_erase hx
              have hx2 : x ≠ k := Finset.ne_of_mem_erase hx
              have hm := hsub hx1
              rw [Finset.mem_range] at hm ⊢
              omega
            · rw [hw0] at h3
              linarith
          · apply ih.complete s hscap
            refine ⟨S, ?_, hsum⟩
            intro x hx
            have hm := hsub hx
            rw [Finset.mem_range] at hm ⊢
            have hxk : x ≠ k := fun he => hk (he ▸ hx)
            omega
        · exact ih.chain
      · show DpInv scaled cap (k + 1)
          (if (scaled.getD k dummyScaled).u ≤ 0 then dpIter cap scaled k
           else dpPass cap (k : ℤ) (scaled.getD k dummyScaled).u.toNat (dpIter cap scaled k))
        rw [if_neg hu]
        exact dpInv_pass scaled cap k (dpIter cap scaled k) hw ih (by
          show 0 < (scaled.getD k dummyScaled).u
          omega)
  exact main scaled.length

/-! ### The three best-capacity scans -/

theorem mem_pyRange {a b s : ℤ} : s ∈ pyRange a b ↔ a ≤ s ∧ s < b := by
  unfold pyRange
  rw [List.mem_map]
  constructor
  · rintro ⟨k, hk, rfl⟩
    rw [List.mem_range] at hk
    omega
  · intro h
    refine ⟨(s - a).toNat, ?_, ?_⟩
    · rw [List.mem_range]; omega
    · omega

theorem pyRange_pairwise (a b : ℤ) : (pyRange a b).Pairwise (· < ·) := by
  unfold pyRange
  refine List.Pairwise.map _ ?_ (List.pairwise_lt_range _)
  intro k1 k2 h
  omega

theorem scan_foldl_spec (d : ℕ → ℤ) :
    ∀ L : List ℤ, L.Pairwise (· < ·) →
      ((∀ s ∈ L, d s.toNat = -1) ∧
        L.foldl (fun b s => if d s.toNat ≠ -1 then s else b) (-1) = -1)
      ∨ (∃ m, L.foldl (fun b s => if d s.toNat ≠ -1 then s else b) (-1) = m ∧ m ∈ L ∧
          d m.toNat ≠ -1 ∧ ∀ t ∈ L, d t.toNat ≠ -1 → t ≤ m) := by
  intro L
  induction L using List.reverseRecOn with
  | nil => exact fun _ => Or.inl ⟨by simp, rfl⟩
  | append_singleton L2 a ih =>
    intro hpw
    have hpw2 : L2.Pairwise (· < ·) := (List.pairwise_append.mp hpw).1
    have hlta : ∀ t ∈ L2, t < a := by
      intro t ht
      exact (List.pairwise_append.mp hpw).2.2 t ht a (by simp)
    rw [List.foldl_append]
    simp only [List.foldl_cons, List.foldl_nil]
    by_cases hda : d a.toNat ≠ -1
    · right
      refine ⟨a, ?_, List.mem_append_right _ (by simp), hda, ?_⟩
      · rw [if_pos hda]
      · intro t ht _
        rcases List.mem_append.mp ht with h | h
        · exact le_of_lt (hlta t h)
        · simp at h; omega
    · rw [if_neg hda]
      rcases ih hpw2 with ⟨hall, heq⟩ | ⟨m, heq, hm, hdm, hbound⟩
      · left
        refine ⟨?_, heq⟩
        intro s hs
        rcases List.mem_append.mp hs with h | h
        · exact hall s h
        · simp at h
          subst h
          simpa using hda
      · right
        refine ⟨m, heq, List.mem_append_left _ hm, hdm, ?_⟩
        intro t ht hdt
        rcases List.mem_append.mp ht with h | h
        · exact hbound t h hdt
        · simp at h; subst h; exact absurd hdt hda

theorem primaryBest_spec (d : ℕ → ℤ) (low cap : ℤ) :
    ((∀ s : ℤ, low ≤ s → s ≤ cap → d s.toNat = -1) ∧ primaryBest d low cap = -1)
    ∨ (low ≤ primaryBest d low cap ∧ primaryBest d low cap ≤ cap ∧
        d (primaryBest d low cap).toNat ≠ -1 ∧
        ∀ t : ℤ, low ≤ t → t ≤ cap → d t.toNat ≠ -1 → t ≤ primaryBest d low cap) := by
  rcases scan_foldl_spec d (pyRange low (cap + 1)) (pyRange_pairwise _ _) with
    ⟨hall, heq⟩ | ⟨m, heq, hm, hdm, hbound⟩
  · left
    exact ⟨fun s h1 h2 => hall s (mem_pyRange.mpr ⟨h1, by omega⟩),
      by rw [primaryBest]; exact heq⟩
  · right
    rw [primaryBest, heq]
    have hmr := mem_pyRange.mp hm
    exact ⟨hmr.1, by omega, hdm,
      fun t h1 h2 h3 => hbound t (mem_pyRange.mpr ⟨h1, by omega⟩) h3⟩

theorem find_desc_spec (d : ℕ → ℤ) :
    ∀ L : List ℤ, L.Pairwise (· > ·) →
      ∀ m, L.find? (fun s => decide (d s.toNat ≠ -1)) = some m →
        m ∈ L ∧ d m.toNat ≠ -1 ∧ ∀ t ∈ L, d t.toNat ≠ -1 → t ≤ m := by
  intro L
  induction L with
  | nil => intro _ m h; cases h
  | cons a rest ih =>
    intro hpw m h
    have ha : ∀ x ∈ rest, x < a := fun x hx => (List.pairwise_cons.mp hpw).1 x hx
    by_cases hda : d a.toNat ≠ -1
    · rw [List.find?_cons_of_pos _ (by simpa using hda)] at h
      injection h with h2
      subst h2
      refine ⟨List.mem_cons_self _ _, hda, ?_⟩
      intro t ht _
      rcases List.mem_cons.mp ht with rfl | h2
      · exact le_refl _
      · exact le_of_lt (ha t h2)
    · rw [List.find?_cons_of_neg _ (by simpa using hda)] at h
      obtain ⟨hm, hdm, hbound⟩ := ih (List.pairwise_cons.mp hpw).2 m h
      refine ⟨List.mem_cons_of_mem a hm, hdm, ?_⟩
      intro t ht hdt
      rcases List.mem_cons.mp ht with rfl | h2
      · exact absurd hdt hda
      · exact hbound t h2 hdt

theorem fallbackDown_spec (d : ℕ → ℤ) (low : ℤ) (hlow : 1 ≤ low) (h0 : d 0 ≠ -1) :
    0 ≤ fallbackDown d low ∧ fallbackDown d low < low ∧
      d (fallbackDown d low).toNat ≠ -1 ∧
      ∀ t : ℤ, 0 ≤ t → t < low → d t.toNat ≠ -1 → t ≤ fallbackDown d low := by
  cases hf : (pyRange 0 low).reverse.find? (fun s => decide (d s.toNat ≠ -1)) with
  | none =>
    exfalso
    have hmem : (0 : ℤ) ∈ (pyRange 0 low).reverse := by
      rw [List.mem_reverse]
      exact mem_pyRange.mpr ⟨le_refl 0, hlow⟩
    have hn := List.find?_eq_none.mp hf 0 hmem
    simp at hn
    exact h0 hn
  | some m =>
    have hpairwise : ((pyRange 0 low).reverse).Pairwise (· > ·) := by
      rw [List.pairwise_reverse]
      exact pyRange_pairwise 0 low
    obtain ⟨hm, hdm, hbound⟩ := find_desc_spec d _ hpairwise m hf
    rw [List.mem_reverse] at hm
    have hmr := mem_pyRange.mp hm
    have hres : fallbackDown d low = m := by simp only [fallbackDown, hf]
    rw [hres]
    exact ⟨hmr.1, hmr.2, hdm,
      fun t h1 h2 h3 => hbound t (by rw [List.mem_reverse]; exact mem_pyRange.mpr ⟨h1, h2⟩) h3⟩

theorem fallbackDown_cases (d : ℕ → ℤ) (low : ℤ) :
    fallbackDown d low = -1 ∨
      (0 ≤ fallbackDown d low ∧ fallbackDown d low < low ∧
        d (fallbackDown d low).toNat ≠ -1) := by
  cases hf : (pyRange 0 low).reverse.find? (fun s => decide (d s.toNat ≠ -1)) with
  | none => exact Or.inl (by simp only [fallbackDown, hf])
  | some m =>
    right
    have hres : fallbackDown d low = m := by simp only [fallbackDown, hf]
    rw [hres]
    have hmm := List.mem_of_find?_eq_some hf
    have hp := List.find?_some hf
    rw [List.mem_reverse] at hmm
    have hmr := mem_pyRange.mp hmm
    simp at hp
    exact ⟨hmr.1, hmr.2, hp⟩

theorem fallbackUp_cases (d : ℕ → ℤ) (low cap : ℤ) :
    fallbackUp d low cap = -1 ∨
      (low + 1 ≤ fallbackUp d low cap ∧ fallbackUp d low cap ≤ cap ∧
        d (fallbackUp d low cap).toNat ≠ -1) := by
  cases hf : (pyRange (low + 1) (cap + 1)).find? (fun s => decide (d s.toNat ≠ -1)) with
  | none => exact Or.inl (by simp only [fallbackUp, hf])
  | some m =>
    right
    have hres : fallbackUp d low cap = m := by simp only [fallbackUp, hf]
    rw [hres]
    have hmm := List.mem_of_find?_eq_some hf
    have hp := List.find?_some hf
    have hmr := mem_pyRange.mp hmm
    simp at hp
    exact ⟨hmr.1, by omega, hp⟩

/-! ### The backtracking loop -/

theorem backtrack_spec (scaled : List Scaled) (cap : ℕ) (d : ℕ → ℤ)
    (hinv : DpInv scaled cap scaled.length d) :
    ∀ (fuel : ℕ) (cur : ℤ) (acc : List ℤ),
      0 < cur → d cur.toNat ≠ -1 → cur.toNat + 1 ≤ fuel →
      (∀ j ∈ acc, d cur.toNat < j) →
      ∃ l : List ℤ,
        backtrackAux scaled d fuel cur acc = (acc ++ l, 0) ∧
        l.Pairwise (· > ·) ∧
        (∀ x ∈ l, x ≤ d cur.toNat ∧ ∃ xN : ℕ, x = (xN : ℤ) ∧ xN < scaled.length) ∧
        ((l.map fun x => (pyIdx scaled x).u).sum = cur) := by
  intro fuel
  induction fuel with
  | zero =>
    intro cur acc hcur _ hfuel _
    omega
  | succ fuel ih =>
    intro cur acc hcur hdne hfuel haccb
    have hcn1 : 1 ≤ cur.toNat := by omega
    rcases hinv.codom cur.toNat hcn1 with hc | ⟨iN, hiN, hvi⟩
    · exact absurd hc hdne
    have hguard : d cur.toNat ∉ acc := fun hmem => absurd (haccb _ hmem) (lt_irrefl _)
    have hstep : backtrackAux scaled d (fuel + 1) cur acc =
        backtrackAux scaled d fuel (cur - (pyIdx scaled (d cur.toNat)).u)
          (acc ++ [d cur.toNat]) := by
      simp only [backtrackAux]
      rw [if_neg (by omega : ¬ cur ≤ 0), if_neg hguard]
    obtain ⟨hupos, hwle, hdprev, hdlt⟩ := hinv.chain cur.toNat iN hvi
    have hpy : pyIdx scaled (d cur.toNat) = scaled.getD iN dummyScaled := by
      rw [hvi]
      unfold pyIdx
      rw [if_pos (Int.natCast_nonneg iN), Int.toNat_natCast]
    have hpyu : (pyIdx scaled (d cur.toNat)).u = wOf scaled iN := by
      rw [hpy]; rfl
    set cur2 := cur - (pyIdx scaled (d cur.toNat)).u with hcur2
    rw [hpyu] at hcur2
    have hcurc : ((cur.toNat : ℤ)) = cur := Int.toNat_of_nonneg (by omega)
    have hcur2eq : cur2.toNat = cur.toNat - (wOf scaled iN).toNat := by omega
    by_cases hz : cur2 = 0
    · have hterm : backtrackAux scaled d fuel cur2 (acc ++ [d cur.toNat]) =
          (acc ++ [d cur.toNat], cur2) := by
        cases fuel with
        | zero => exact absurd hfuel (by omega)
        | succ fuel2 =>
          simp only [backtrackAux]
          rw [if_pos (by omega : cur2 ≤ 0)]
      refine ⟨[d cur.toNat], ?_, ?_, ?_, ?_⟩
      · rw [hstep, hterm, hz]
      · simp
      · intro x hx
        simp at hx
        subst hx
        exact ⟨le_refl _, iN, hvi, hiN⟩
      · simp only [List.map_cons, List.map_nil, List.sum_cons, List.sum_nil, hpyu]
        omega
    · have hcur2pos : 0 < cur2 := by omega
      have hdprev2 : d cur2.toNat ≠ -1 := by rw [hcur2eq]; exact hdprev
      have hval2 : d cur2.toNat < (iN : ℤ) := by rw [hcur2eq]; exact hdlt
      have hfuel2 : cur2.toNat + 1 ≤ fuel := by omega
      have haccb2 : ∀ j ∈ acc ++ [d cur.toNat], d cur2.toNat < j := by
        intro j hj
        rcases List.mem_append.mp hj with h | h
        · have hlt := haccb j h
          rw [hvi] at hlt
          omega
        · simp at h
          subst h
          rw [hvi]
          exact hval2
      obtain ⟨l2, heq2, hpw2, hmem2, hsum2⟩ :=
        ih cur2 (acc ++ [d cur.toNat]) hcur2pos hdprev2 hfuel2 haccb2
      refine ⟨d cur.toNat :: l2, ?_, ?_, ?_, ?_⟩
      · rw [hstep, heq2]
        simp
      · rw [List.pairwise_cons]
        refine ⟨?_, hpw2⟩
        intro x hx
        have hxle := (hmem2 x hx).1
        rw [hvi]
        omega
      · intro x hx
        rcases List.mem_cons.mp hx with rfl | hx2
        · exact ⟨le_refl _, iN, hvi, hiN⟩
        · obtain ⟨hxle, hxN⟩ := hmem2 x hx2
          refine ⟨?_, hxN⟩
          rw [hvi]
          omega
      · simp only [List.map_cons, List.sum_cons, hsum2, hpyu]
        omega

/-! ### Arithmetic facts about the budget window -/

theorem pyInt_cast_mul_nonneg {z : ℤ} (hz : 0 ≤ z) {c : ℚ} (hc : 0 ≤ c) :
    0 ≤ pyInt ((z : ℚ) * c) :=
  pyInt_nonneg (mul_nonneg (by exact_mod_cast hz) hc)

theorem budgetWindow_low_nonneg (dm f : ℚ) : 0 ≤ (budgetWindow dm f).1 := by
  simp only [budgetWindow]
  split_ifs with h8 h6 h6
  · exact pyInt_cast_mul_nonneg (pyInt_cast_mul_nonneg (to_units_nonneg _) (by norm_num))
      (by norm_num)
  · exact pyInt_cast_mul_nonneg (to_units_nonneg _) (by norm_num)
  · exact pyInt_cast_mul_nonneg (to_units_nonneg _) (by norm_num)
  · exact to_units_nonneg _

theorem budgetWindow_high_nonneg (dm f : ℚ) : 0 ≤ (budgetWindow dm f).2 := by
  simp only [budgetWindow]
  split_ifs with h8 h6 h6
  · exact pyInt_cast_mul_nonneg (pyInt_cast_mul_nonneg (to_units_nonneg _) (by norm_num))
      (by norm_num)
  · exact pyInt_cast_mul_nonneg (to_units_nonneg _) (by norm_num)
  · exact pyInt_cast_mul_nonneg (to_units_nonneg _) (by norm_num)
  · exact to_units_nonneg _

theorem pyInt_mul_nine_tenths {z : ℤ} (hz : 0 ≤ z) :
    pyInt ((z : ℚ) * (9/10)) = (z * 9) / 10 := by
  rw [pyInt_of_nonneg (by positivity),
    show (z : ℚ) * (9/10) = ((z * 9 : ℤ) : ℚ) / ((10 : ℕ) : ℚ) by push_cast; ring]
  exact Rat.floor_intCast_div_natCast _ _

theorem pyInt_mul_85_hundredths {z : ℤ} (hz : 0 ≤ z) :
    pyInt ((z : ℚ) * (85/100)) = (z * 85) / 100 := by
  rw [pyInt_of_nonneg (by positivity),
    show (z : ℚ) * (85/100) = ((z * 85 : ℤ) : ℚ) / ((100 : ℕ) : ℚ) by push_cast; ring]
  exact Rat.floor_intCast_div_natCast _ _

theorem pyInt_mul_seven_tenths {z : ℤ} (hz : 0 ≤ z) :
    pyInt ((z : ℚ) * (7/10)) = (z * 7) / 10 := by
  rw [pyInt_of_nonneg (by positivity),
    show (z : ℚ) * (7/10) = ((z * 7 : ℤ) : ℚ) / ((10 : ℕ) : ℚ) by push_cast; ring]
  exact Rat.floor_intCast_div_natCast _ _

/-- The key relation between the raw low/high unit values. -/
theorem budget_relation (dm : ℚ) :
    13 * to_units (dm * (7/10)) ≤ 7 * to_units (dm * (13/10)) + 10 := by
  by_cases hdm : 0 ≤ dm
  · rw [to_units_of_nonneg (by positivity), to_units_of_nonneg (by positivity)]
    have h1 := pyRound_sub_abs_le (dm * (7/10) * SCALE)
    have h2 := pyRound_sub_abs_le (dm * (13/10) * SCALE)
    rw [abs_le] at h1 h2
    have hgoal : (13 * pyRound (dm * (7/10) * SCALE) : ℚ) ≤
        7 * pyRound (dm * (13/10) * SCALE) + 10 := by
      unfold SCALE at h1 h2 ⊢
      push_cast
      linarith [h1.1, h1.2, h2.1, h2.2]
    exact_mod_cast hgoal
  · push_neg at hdm
    have hL : to_units (dm * (7/10)) = 0 := by
      have hp : pyRound (dm * (7/10) * SCALE) ≤ 0 := by
        apply pyRound_nonpos
        unfold SCALE
        nlinarith
      unfold to_units
      omega
    rw [hL]
    have hH := to_units_nonneg (dm * (13/10))
    omega

theorem budget_div_mid {L H : ℤ} (hL : 0 ≤ L) (hH : 0 ≤ H) (hA : 13 * L ≤ 7 * H + 10) :
    (L * 9) / 10 ≤ (H * 85) / 100 := by
  by_cases h2 : 2 ≤ L
  · have hkey : 18 * L ≤ 17 * H := by omega
    clear hA
    omega
  · clear hA
    omega

theorem budget_div_deep {L H : ℤ} (hL : 0 ≤ L) (hH : 0 ≤ H) (hA : 13 * L ≤ 7 * H + 10) :
    ((L * 9) / 10 * 9) / 10 ≤ ((H * 85) / 100 * 7) / 10 := by
  by_cases h2 : 6 ≤ L
  · have hkey2 : 162 * L ≤ 119 * H - 140 := by omega
    clear hA
    omega
  · have hL5 : L ≤ 5 := by omega
    have hH2 : 13 * L - 10 ≤ 7 * H := by omega
    clear hA
    interval_cases L <;> omega

/-- The derated window never inverts: `low_u ≤ high_u` on every fatigue branch. -/
theorem budgetWindow_le (dm f : ℚ) : (budgetWindow dm f).1 ≤ (budgetWindow dm f).2 := by
  have hA := budget_relation dm
  have hL0 : 0 ≤ to_units (dm * (7/10)) := to_units_nonneg _
  have hH0 : 0 ≤ to_units (dm * (13/10)) := to_units_nonneg _
  simp only [budgetWindow]
  split_ifs with h8 h6 h6
  · rw [pyInt_mul_nine_tenths hL0, pyInt_mul_85_hundredths hH0,
      pyInt_mul_nine_tenths (by omega), pyInt_mul_seven_tenths (by omega)]
    exact budget_div_deep hL0 hH0 hA
  · exfalso
    exact h6 (lt_trans (by norm_num) h8)
  · rw [pyInt_mul_nine_tenths hL0, pyInt_mul_85_hundredths hH0]
    exact budget_div_mid hL0 hH0 hA
  · omega

/-! ### Bridging the eligible items and the scaled list -/

theorem mkScaled_nonneg (items : List Item) : ∀ sc ∈ mkScaled items, 0 ≤ sc.u := by
  intro sc hsc
  obtain ⟨it, _, rfl⟩ := List.mem_map.mp hsc
  exact to_units_nonneg _

theorem mkScaled_length (items : List Item) : (mkScaled items).length = items.length :=
  List.length_map _ _

theorem mkScaled_getD (items : List Item) (i : ℕ) (hi : i < items.length) :
    (mkScaled items).getD i dummyScaled =
      ⟨to_units (items.getD i dummyItem).mins, items.getD i dummyItem⟩ := by
  unfold mkScaled
  rw [List.getD_eq_getElem _ _ (by simpa using hi), List.getElem_map,
    List.getD_eq_getElem _ _ hi]

theorem to_units_zero : to_units 0 = 0 := by
  norm_num [to_units, pyRound, Int.fract, SCALE]

theorem uOf_eq_wOf (items : List Item) (i : ℕ) : uOf items i = wOf (mkScaled items) i := by
  by_cases hi : i < items.length
  · rw [wOf, mkScaled_getD items i hi]
    rfl
  · unfold uOf wOf
    rw [List.getD_eq_default _ _ (by omega),
      List.getD_eq_default _ _ (by rw [mkScaled_length]; omega)]
    show to_units dummyItem.mins = dummyScaled.u
    show to_units 0 = (0 : ℤ)
    exact to_units_zero

theorem reachableU_iff (items : List Item) (z : ℤ) :
    ReachableU items z ↔ ReachK (mkScaled items) items.length z := by
  unfold ReachableU ReachK
  have hsum : ∀ S : Finset ℕ,
      (∑ i ∈ S, uOf items i) = ∑ i ∈ S, wOf (mkScaled items) i :=
    fun S => Finset.sum_congr rfl fun i _ => uOf_eq_wOf items i
  constructor
  · rintro ⟨S, h1, h2⟩
    exact ⟨S, h1, by rw [← hsum]; exact h2⟩
  · rintro ⟨S, h1, h2⟩
    exact ⟨S, h1, by rw [hsum]; exact h2⟩

theorem list_sum_map_getD (f : Scaled → ℤ) : ∀ l : List Scaled,
    (l.map f).sum = ∑ i ∈ Finset.range l.length, f (l.getD i dummyScaled) := by
  intro l
  induction l with
  | nil => simp
  | cons a rest ih =>
    rw [List.map_cons, List.sum_cons, ih, List.length_cons, Finset.sum_range_succ']
    have h1 : ∀ i : ℕ, (a :: rest).getD (i + 1) dummyScaled = rest.getD i dummyScaled :=
      fun i => rfl
    have h2 : (a :: rest).getD 0 dummyScaled = a := rfl
    simp only [h1, h2]
    ring

theorem reachK_le_total (scaled : List Scaled) (hw : ∀ sc ∈ scaled, 0 ≤ sc.u) {z : ℤ}
    (hr : ReachK scaled scaled.length z) : z ≤ (scaled.map fun sc => sc.u).sum := by
  obtain ⟨S, hsub, hsum⟩ := hr
  rw [← hsum, list_sum_map_getD (fun sc => sc.u) scaled]
  exact Finset.sum_le_sum_of_subset_of_nonneg hsub fun i _ _ => wOf_nonneg scaled hw i

theorem pyIdx_natCast (items : List Item) (xN : ℕ) (hx : xN < items.length) :
    pyIdx (mkScaled items) ((xN : ℕ) : ℤ) =
      ⟨to_units (items.getD xN dummyItem).mins, items.getD xN dummyItem⟩ := by
  unfold pyIdx
  rw [if_pos (Int.natCast_nonneg _), Int.toNat_natCast]
  exact mkScaled_getD items xN hx

/-- Converting a backtracked index list into a list of positions in `items`. -/
theorem backtrack_to_result (items : List Item) (l : List ℤ)
    (hpw : l.Pairwise (· > ·))
    (hmem : ∀ x ∈ l, ∃ xN : ℕ, x = (xN : ℤ) ∧ xN < items.length) :
    ∃ lN : List ℕ, lN.Nodup ∧ (∀ i ∈ lN, i < items.length) ∧
      (l.map fun i => toChosen (pyIdx (mkScaled items) i).it) =
        lN.map (fun i => toChosen (items.getD i dummyItem)) ∧
      ((l.map fun i => toChosen (pyIdx (mkScaled items) i).it).map fun c => c.mins).sum =
        (lN.map fun i => (items.getD i dummyItem).mins).sum ∧
      (lN.map (uOf items)).sum = (l.map fun x => (pyIdx (mkScaled items) x).u).sum := by
  have hlist : (l.map fun i => toChosen (pyIdx (mkScaled items) i).it) =
      (l.map Int.toNat).map (fun i => toChosen (items.getD i dummyItem)) := by
    rw [List.map_map]
    apply List.map_congr_left
    intro x hx
    obtain ⟨xN, rfl, hlt⟩ := hmem x hx
    show toChosen (pyIdx (mkScaled items) ((xN : ℕ) : ℤ)).it =
      toChosen (items.getD (((xN : ℕ) : ℤ)).toNat dummyItem)
    rw [pyIdx_natCast items xN hlt, Int.toNat_natCast]
  have husum : ((l.map Int.toNat).map (uOf items)).sum =
      (l.map fun x => (pyIdx (mkScaled items) x).u).sum := by
    rw [List.map_map]
    congr 1
    apply List.map_congr_left
    intro x hx
    obtain ⟨xN, rfl, hlt⟩ := hmem x hx
    show uOf items (((xN : ℕ) : ℤ)).toNat = (pyIdx (mkScaled items) ((xN : ℕ) : ℤ)).u
    rw [Int.toNat_natCast, pyIdx_natCast items xN hlt]
    rfl
  have hminsum :
      ((l.map fun i => toChosen (pyIdx (mkScaled items) i).it).map fun c => c.mins).sum =
      ((l.map Int.toNat).map fun i => (items.getD i dummyItem).mins).sum := by
    rw [hlist, List.map_map]
    rfl
  refine ⟨l.map Int.toNat, ?_, ?_, hlist, hminsum, husum⟩
  · refine List.Nodup.map_on ?_ (hpw.imp fun h => ne_of_gt h)
    intro x hx y hy he
    obtain ⟨xN, rfl, _⟩ := hmem x hx
    obtain ⟨yN, rfl, _⟩ := hmem y hy
    rw [Int.toNat_natCast, Int.toNat_natCast] at he
    exact congrArg Nat.cast he
  · intro i hi
    obtain ⟨x, hx, rfl⟩ := List.mem_map.mp hi
    obtain ⟨xN, rfl, hlt⟩ := hmem x hx
    simpa [Int.toNat_natCast] using hlt

/-! ### Named internal quantities of the selector (for the proofs below) -/

/-- The capacity `cap` of line 117. -/
def selCap (items : List Item) (dm f : ℚ) : ℤ :=
  min (((mkScaled items).map fun sc => sc.u).sum) (budgetWindow dm f).2

/-- The dp array of lines 118-124. -/
def selDp (items : List Item) (dm f : ℚ) : ℕ → ℤ :=
  buildDp (selCap items dm f).toNat (mkScaled items)

/-- The `best` of lines 126-134. -/
def selBest (items : List Item) (dm f : ℚ) : ℤ :=
  let d := selDp items dm f
  let low := (budgetWindow dm f).1
  let b0 := primaryBest d low (selCap items dm f)
  if b0 = -1 then
    let b1 := fallbackDown d low
    if b1 = -1 then fallbackUp d low (selCap items dm f) else b1
  else b0

/-- The `chosen` of lines 137-148. -/
def selChosen (items : List Item) (dm f : ℚ) : List ChosenSeg :=
  (backtrackAux (mkScaled items) (selDp items dm f) ((selCap items dm f).toNat + 1)
      (selBest items dm f) []).1.map
    fun i => toChosen (pyIdx (mkScaled items) i).it

theorem knapsackSelect_eq (items : List Item) (dm f : ℚ)
    (hns : ¬ from_units (budgetWindow dm f).1 > (items.map fun it => it.mins).sum) :
    knapsackSelect items dm f =
      if selBest items dm f ≤ 0 then ([], 0)
      else (selChosen items dm f, ((selChosen items dm f).map fun c => c.mins).sum) := by
  simp only [knapsackSelect, selBest, selChosen, selDp, selCap]
  rw [if_neg hns]

/-! ### Claim C1: correctness of the knapsack selection -/

/-- C1 (amended): provided the take-everything short-circuit of line 113 does
not fire, the selector is exact: it returns a duplicate-free subset of the
eligible segments whose unit weights sum to the largest reachable capacity in
`[low_u, cap]` (or, when none is reachable there, to the largest reachable
capacity strictly below `low_u`), together with the exact sum of the chosen
segments' true minute durations. -/
theorem c1_selector_optimal (items : List Item) (dm f : ℚ)
    (hns : ¬ from_units (budgetWindow dm f).1 > (items.map fun it => it.mins).sum) :
    C1Spec items dm f := by
  have hw := mkScaled_nonneg items
  have hlen := mkScaled_length items
  have hlow0 : 0 ≤ (budgetWindow dm f).1 := budgetWindow_low_nonneg dm f
  have hhigh0 : 0 ≤ (budgetWindow dm f).2 := budgetWindow_high_nonneg dm f
  have hlowhigh : (budgetWindow dm f).1 ≤ (budgetWindow dm f).2 := budgetWindow_le dm f
  have htot0 : 0 ≤ ((mkScaled items).map fun sc => sc.u).sum := by
    apply List.sum_nonneg
    intro x hx
    obtain ⟨sc, hsc, rfl⟩ := List.mem_map.mp hx
    exact hw sc hsc
  have hcap0 : 0 ≤ selCap items dm f := le_min htot0 hhigh0
  have hinv : DpInv (mkScaled items) (selCap items dm f).toNat (mkScaled items).length
      (selDp items dm f) := dpInv_buildDp _ _ hw
  have hcapcast : (((selCap items dm f).toNat : ℕ) : ℤ) = selCap items dm f :=
    Int.toNat_of_nonneg hcap0
  have hconv1 : ∀ z, ReachableU items z → ReachK (mkScaled items) (mkScaled items).length z := by
    intro z hz
    rw [hlen]
    exact (reachableU_iff items z).mp hz
  have hconv2 : ∀ z, ReachK (mkScaled items) (mkScaled items).length z → ReachableU items z := by
    intro z hz
    rw [hlen] at hz
    exact (reachableU_iff items z).mpr hz
  have hreach0 : ReachableU items 0 := hconv2 0 (reachK_zero _ _)
  have hrnn : ∀ z, ReachableU items z → 0 ≤ z := fun z hz => reachK_nonneg _ hw (hconv1 z hz)
  have hsound : ∀ s : ℤ, 1 ≤ s → selDp items dm f s.toNat ≠ -1 →
      s ≤ selCap items dm f ∧ ReachableU items s := by
    intro s h1 hne
    obtain ⟨hc, hr⟩ := hinv.sound s.toNat (by omega) hne
    have hsc : ((s.toNat : ℕ) : ℤ) = s := by omega
    constructor
    · omega
    · apply hconv2
      rwa [hsc] at hr
  have hcomplete : ∀ s : ℤ, 0 ≤ s → s ≤ selCap items dm f → ReachableU items s →
      selDp items dm f s.toNat ≠ -1 := by
    intro s h0 hc hr
    by_cases hz : s = 0
    · subst hz
      show selDp items dm f 0 ≠ -1
      rw [hinv.base]
      omega
    · apply hinv.complete s.toNat (by omega)
      have hsc : ((s.toNat : ℕ) : ℤ) = s := by omega
      rw [hsc]
      exact hconv1 s hr
  have hks := knapsackSelect_eq items dm f hns
  have hassemble : ∀ b : ℤ, selBest items dm f = b → 1 ≤ b →
      selDp items dm f b.toNat ≠ -1 →
      ∃ lN : List ℕ, lN.Nodup ∧ (∀ i ∈ lN, i < items.length) ∧
        knapsackSelect items dm f =
          (lN.map (fun i => toChosen (items.getD i dummyItem)),
            (lN.map fun i => (items.getD i dummyItem).mins).sum) ∧
        (lN.map (uOf items)).sum = b := by
    intro b hbsel hb1 hbd
    have hbcapN : b.toNat ≤ (selCap items dm f).toNat := (hinv.sound b.toNat (by omega) hbd).1
    obtain ⟨l, heq, hpw2, hmeml, hsum2⟩ :=
      backtrack_spec (mkScaled items) (selCap items dm f).toNat (selDp items dm f) hinv
        ((selCap items dm f).toNat + 1) b [] (by omega) hbd (by omega) (by simp)
    have hmem2 : ∀ x ∈ l, ∃ xN : ℕ, x = (xN : ℤ) ∧ xN < items.length := by
      intro x hx
      obtain ⟨_, xN, hxe, hxl⟩ := hmeml x hx
      rw [hlen] at hxl
      exact ⟨xN, hxe, hxl⟩
    obtain ⟨lN, hnd, hbound, hlist, hmins, husum⟩ := backtrack_to_result items l hpw2 hmem2
    refine ⟨lN, hnd, hbound, ?_, ?_⟩
    · rw [hks, if_neg (by rw [hbsel]; omega : ¬ selBest items dm f ≤ 0)]
      have hchosen : selChosen items dm f = lN.map (fun i => toChosen (items.getD i dummyItem)) := by
        unfold selChosen
        rw [hbsel, heq]
        simp only [List.nil_append]
        exact hlist
      rw [hchosen]
      have hmins2 :
          ((lN.map (fun i => toChosen (items.getD i dummyItem))).map fun c => c.mins).sum
          = (lN.map fun i => (items.getD i dummyItem).mins).sum := by
        rw [List.map_map]
        rfl
      rw [hmins2]
    · rw [husum]
      exact hsum2
  simp only [C1Spec]
  rw [show (min (((mkScaled items).map fun sc => sc.u).sum) (budgetWindow dm f).2)
      = selCap items dm f from rfl]
  by_cases hex : ∃ s, ReachableU items s ∧ (budgetWindow dm f).1 ≤ s ∧ s ≤ selCap items dm f
  · obtain ⟨s0, hs0r, hs0l, hs0u⟩ := hex
    have hds0 : selDp items dm f s0.toNat ≠ -1 := hcomplete s0 (hrnn s0 hs0r) hs0u hs0r
    rcases primaryBest_spec (selDp items dm f) (budgetWindow dm f).1 (selCap items dm f) with
      ⟨hall, _⟩ | ⟨hb1, hb2, hb3, hb4⟩
    · exact absurd (hall s0 hs0l hs0u) hds0
    have hbne : primaryBest (selDp items dm f) (budgetWindow dm f).1 (selCap items dm f) ≠ -1 := by
      omega
    have hself : selBest items dm f =
        primaryBest (selDp items dm f) (budgetWindow dm f).1 (selCap items dm f) := by
      simp only [selBest]
      rw [if_neg hbne]
    have hgreatest : IsGreatest
        {s | ReachableU items s ∧ (budgetWindow dm f).1 ≤ s ∧ s ≤ selCap items dm f}
        (primaryBest (selDp items dm f) (budgetWindow dm f).1 (selCap items dm f)) := by
      constructor
      · refine ⟨?_, hb1, hb2⟩
        by_cases hz :
            primaryBest (selDp items dm f) (budgetWindow dm f).1 (selCap items dm f) = 0
        · rw [hz]
          exact hreach0
        · exact (hsound _ (by omega) hb3).2
      · rintro t ⟨htr, htl, htu⟩
        exact hb4 t htl htu (hcomplete t (hrnn t htr) htu htr)
    by_cases hz : primaryBest (selDp items dm f) (budgetWindow dm f).1 (selCap items dm f) = 0
    · have hres : knapsackSelect items dm f = ([], 0) := by
        rw [hks, if_pos (by rw [hself, hz] : selBest items dm f ≤ (0:ℤ))]
      refine ⟨[], List.nodup_nil, by simp, by rw [hres]; rfl, by rw [hres]; rfl, ?_, ?_⟩
      · intro _
        have hg := hgreatest
        rw [hz] at hg
        simpa using hg
      · intro hcon
        exact absurd ⟨s0, hs0r, hs0l, hs0u⟩ hcon
    · obtain ⟨lN, hnd, hbound, hres, hbsum⟩ := hassemble
        (primaryBest (selDp items dm f) (budgetWindow dm f).1 (selCap items dm f))
        hself (by omega) hb3
      refine ⟨lN, hnd, hbound, by rw [hres], by rw [hres], ?_, ?_⟩
      · intro _
        rw [hbsum]
        exact hgreatest
      · intro hcon
        exact absurd ⟨s0, hs0r, hs0l, hs0u⟩ hcon
  · rcases primaryBest_spec (selDp items dm f) (budgetWindow dm f).1 (selCap items dm f) with
      ⟨hall, hbe⟩ | ⟨hb1, hb2, hb3, hb4⟩
    · have hlow1 : 1 ≤ (budgetWindow dm f).1 := by
        by_contra hcon
        exact hex ⟨0, hreach0, by omega, hcap0⟩
      have hd0 : selDp items dm f 0 ≠ -1 := by
        rw [hinv.base]
        omega
      obtain ⟨hfb0, hfbl, hfbd, hfbmax⟩ :=
        fallbackDown_spec (selDp items dm f) (budgetWindow dm f).1 hlow1 hd0
      have hfbne : fallbackDown (selDp items dm f) (budgetWindow dm f).1 ≠ -1 := by omega
      have hself : selBest items dm f =
          fallbackDown (selDp items dm f) (budgetWindow dm f).1 := by
        simp only [selBest]
        rw [if_pos hbe, if_neg hfbne]
      have hgreatest2 : IsGreatest {s | ReachableU items s ∧ s < (budgetWindow dm f).1}
          (fallbackDown (selDp items dm f) (budgetWindow dm f).1) := by
        constructor
        · refine ⟨?_, hfbl⟩
          by_cases hz : fallbackDown (selDp items dm f) (budgetWindow dm f).1 = 0
          · rw [hz]
            exact hreach0
          · exact (hsound _ (by omega) hfbd).2
        · rintro t ⟨htr, htl⟩
          have ht0 : 0 ≤ t := hrnn t htr
          have htcap : t ≤ selCap items dm f := by
            apply le_min
            · exact reachK_le_total (mkScaled items) hw (hconv1 t htr)
            · omega
          exact hfbmax t ht0 htl (hcomplete t ht0 htcap htr)
      by_cases hz : fallbackDown (selDp items dm f) (budgetWindow dm f).1 = 0
      · have hres : knapsackSelect items dm f = ([], 0) := by
          rw [hks, if_pos (by rw [hself, hz] : selBest items dm f ≤ (0:ℤ))]
        refine ⟨[], List.nodup_nil, by simp, by rw [hres]; rfl, by rw [hres]; rfl, ?_, ?_⟩
        · intro hcon
          exact absurd hcon hex
        · intro _
          have hg := hgreatest2
          rw [hz] at hg
          simpa using hg
      · obtain ⟨lN, hnd, hbound, hres, hbsum⟩ := hassemble
          (fallbackDown (selDp items dm f) (budgetWindow dm f).1) hself (by omega) hfbd
        refine ⟨lN, hnd, hbound, by rw [hres], by rw [hres], ?_, ?_⟩
        · intro hcon
          exact absurd hcon hex
        · intro _
          rw [hbsum]
          exact hgreatest2
    · exfalso
      by_cases hz : primaryBest (selDp items dm f) (budgetWindow dm f).1 (selCap items dm f) = 0
      · exact hex ⟨0, hreach0, by omega, hcap0⟩
      · exact hex ⟨primaryBest (selDp items dm f) (budgetWindow dm f).1 (selCap items dm f),
          (hsound _ (by omega) hb3).2, hb1, hb2⟩

/-- C1 counterexample: thirteen eligible segments of 0.06 min each with
`daily_minutes_target = 1.4`, `fatigue_score = 0.9`.  The derated window is
`[8, 10]` units and capacity 8 is reachable, but `from_units(8) = 0.8 >
0.78` minutes of total time, so the line-113 short-circuit returns all
thirteen segments (unit weight 13 ∉ [8, 10]) instead of a subset of weight
10 — the claim as stated is false. -/
theorem c1_short_circuit_counterexample :
    ¬ C1Spec (List.replicate 13 (⟨"0-0", 0, some "L", some "t", 3/50, 3, 1⟩ : Item))
      (7/5) (9/10) := by
  intro hC
  have hbw : budgetWindow (7/5) (9/10) = (8, 10) := by
    norm_num [budgetWindow, to_units, pyRound, pyInt, SCALE, Int.fract]
  have hu : to_units (3/50 : ℚ) = 1 := by
    norm_num [to_units, pyRound, SCALE, Int.fract]
  have hgetD : ∀ i : ℕ, i < 13 →
      (List.replicate 13 (⟨"0-0", 0, some "L", some "t", 3/50, 3, 1⟩ : Item)).getD i dummyItem
        = ⟨"0-0", 0, some "L", some "t", 3/50, 3, 1⟩ := by
    intro i hi
    rw [List.getD_eq_getElem _ _ (by simpa using hi), List.getElem_replicate]
  have huOf : ∀ i : ℕ, i < 13 →
      uOf (List.replicate 13 (⟨"0-0", 0, some "L", some "t", 3/50, 3, 1⟩ : Item)) i = 1 := by
    intro i hi
    unfold uOf
    rw [hgetD i hi]
    exact hu
  have husum : (((mkScaled (List.replicate 13
      (⟨"0-0", 0, some "L", some "t", 3/50, 3, 1⟩ : Item))).map fun sc => sc.u)).sum = 13 := by
    unfold mkScaled
    rw [List.map_replicate, List.map_replicate, List.sum_replicate]
    show (13 : ℕ) • to_units (3/50 : ℚ) = 13
    rw [hu]
    rfl
  simp only [C1Spec] at hC
  obtain ⟨l, hnd, hbound, hmap, hmins, hmain, hfall⟩ := hC
  have htotal : ((List.replicate 13 (⟨"0-0", 0, some "L", some "t", 3/50, 3, 1⟩ : Item)).map
      fun it => it.mins).sum = 39/50 := by
    rw [List.map_replicate, List.sum_replicate]
    norm_num
  have hcond : from_units (budgetWindow (7/5) (9/10)).1 >
      ((List.replicate 13 (⟨"0-0", 0, some "L", some "t", 3/50, 3, 1⟩ : Item)).map
        fun it => it.mins).sum := by
    rw [hbw, htotal]
    norm_num [from_units, SCALE]
  have hres : knapsackSelect (List.replicate 13
      (⟨"0-0", 0, some "L", some "t", 3/50, 3, 1⟩ : Item)) (7/5) (9/10) =
      ((List.replicate 13 (⟨"0-0", 0, some "L", some "t", 3/50, 3, 1⟩ : Item)).map toChosen,
        ((List.replicate 13 (⟨"0-0", 0, some "L", some "t", 3/50, 3, 1⟩ : Item)).map
          fun it => it.mins).sum) := by
    simp only [knapsackSelect]
    rw [if_pos hcond]
  have hexr : ∃ s, ReachableU (List.replicate 13
      (⟨"0-0", 0, some "L", some "t", 3/50, 3, 1⟩ : Item)) s ∧
      (budgetWindow (7/5) (9/10)).1 ≤ s ∧
      s ≤ min (((mkScaled (List.replicate 13
        (⟨"0-0", 0, some "L", some "t", 3/50, 3, 1⟩ : Item))).map fun sc => sc.u)).sum
        (budgetWindow (7/5) (9/10)).2 := by
    refine ⟨8, ⟨Finset.range 8, ?_, ?_⟩, ?_, ?_⟩
    · intro x hx
      rw [Finset.mem_range] at hx ⊢
      simp only [List.length_replicate]
      omega
    · rw [Finset.sum_congr rfl (fun i hi => huOf i (by rw [Finset.mem_range] at hi; omega))]
      simp
    · rw [hbw]
    · rw [husum, hbw]
      norm_num [le_min_iff]
  have hg := hmain hexr
  have hlen13 : l.length = 13 := by
    have hc := congrArg List.length hmap
    rw [hres] at hc
    simp only [List.length_map, List.length_replicate] at hc
    omega
  have hsum13 : (l.map (uOf (List.replicate 13
      (⟨"0-0", 0, some "L", some "t", 3/50, 3, 1⟩ : Item)))).sum = 13 := by
    have hone : l.map (uOf (List.replicate 13
        (⟨"0-0", 0, some "L", some "t", 3/50, 3, 1⟩ : Item))) = l.map fun _ => (1:ℤ) :=
      List.map_congr_left fun x hx => huOf x (hbound x hx)
    rw [hone]
    simp [hlen13]
  rw [hsum13] at hg
  have h13 := hg.1.2.2
  rw [hbw] at h13
  have h10 : (13:ℤ) ≤ 10 := le_trans h13 (min_le_right _ _)
  omega

/-- Witness for `c1_selector_optimal` at three segments of 0.5/1.0/1.5
minutes with `daily_minutes_target = 1`, `fatigue_score = 0`. -/
theorem c1_selector_optimal_witness :
    ¬ from_units (budgetWindow 1 0).1 >
        (([⟨"0-0", 0, some "L", some "a", 1/2, 3, 1⟩,
           ⟨"0-1", 0, some "L", some "b", 1, 3, 1⟩,
           ⟨"0-2", 0, some "L", some "c", 3/2, 3, 1⟩] : List Item).map fun it => it.mins).sum ∧
    C1Spec [⟨"0-0", 0, some "L", some "a", 1/2, 3, 1⟩,
            ⟨"0-1", 0, some "L", some "b", 1, 3, 1⟩,
            ⟨"0-2", 0, some "L", some "c", 3/2, 3, 1⟩] 1 0 := by
  have hbw : budgetWindow 1 0 = (7, 13) := by
    norm_num [budgetWindow, to_units, pyRound, pyInt, SCALE, Int.fract]
  have hp : ¬ from_units (budgetWindow 1 0).1 >
      (([⟨"0-0", 0, some "L", some "a", 1/2, 3, 1⟩,
         ⟨"0-1", 0, some "L", some "b", 1, 3, 1⟩,
         ⟨"0-2", 0, some "L", some "c", 3/2, 3, 1⟩] : List Item).map fun it => it.mins).sum := by
    rw [hbw]
    norm_num [from_units, SCALE]
  exact ⟨hp, c1_selector_optimal _ 1 0 hp⟩

/-! ### Claim C9: the upward-scan fallback is dead code -/

/-- The `best` of the no-upward-scan variant. -/
def selBestNoUp (items : List Item) (dm f : ℚ) : ℤ :=
  let d := selDp items dm f
  let low := (budgetWindow dm f).1
  let b0 := primaryBest d low (selCap items dm f)
  if b0 = -1 then fallbackDown d low else b0

/-- The `chosen` of the no-upward-scan variant. -/
def selChosenNoUp (items : List Item) (dm f : ℚ) : List ChosenSeg :=
  (backtrackAux (mkScaled items) (selDp items dm f) ((selCap items dm f).toNat + 1)
      (selBestNoUp items dm f) []).1.map
    fun i => toChosen (pyIdx (mkScaled items) i).it

theorem knapsackSelectNoUpward_unfold (items : List Item) (dm f : ℚ)
    (hns : ¬ from_units (budgetWindow dm f).1 > (items.map fun it => it.mins).sum) :
    knapsackSelectNoUpward items dm f =
      if selBestNoUp items dm f ≤ 0 then ([], 0)
      else (selChosenNoUp items dm f, ((selChosenNoUp items dm f).map fun c => c.mins).sum) := by
  simp only [knapsackSelectNoUpward, selBestNoUp, selChosenNoUp, selDp, selCap]
  rw [if_neg hns]

theorem selBestNoUp_eq (items : List Item) (dm f : ℚ) :
    selBestNoUp items dm f = selBest items dm f := by
  have hw := mkScaled_nonneg items
  have hinv : DpInv (mkScaled items) (selCap items dm f).toNat (mkScaled items).length
      (selDp items dm f) := dpInv_buildDp _ _ hw
  have hlow0 := budgetWindow_low_nonneg dm f
  have hhigh0 := budgetWindow_high_nonneg dm f
  have htot0 : 0 ≤ ((mkScaled items).map fun sc => sc.u).sum := by
    apply List.sum_nonneg
    intro x hx
    obtain ⟨sc, hsc, rfl⟩ := List.mem_map.mp hx
    exact hw sc hsc
  have hcap0 : 0 ≤ selCap items dm f := le_min htot0 hhigh0
  simp only [selBestNoUp, selBest]
  by_cases hb0 : primaryBest (selDp items dm f) (budgetWindow dm f).1 (selCap items dm f) = -1
  · rw [if_pos hb0, if_pos hb0]
    by_cases hlow1 : 1 ≤ (budgetWindow dm f).1
    · have hd0 : selDp items dm f 0 ≠ -1 := by
        rw [hinv.base]
        omega
      obtain ⟨hfb0, _, _, _⟩ := fallbackDown_spec (selDp items dm f) _ hlow1 hd0
      rw [if_neg (by omega : ¬ fallbackDown (selDp items dm f) (budgetWindow dm f).1 = -1)]
    · exfalso
      rcases primaryBest_spec (selDp items dm f) (budgetWindow dm f).1 (selCap items dm f) with
        ⟨hall, _⟩ | ⟨hb1, _, _, _⟩
      · have hz := hall 0 (by omega) (by omega)
        rw [show ((0:ℤ)).toNat = 0 from rfl, hinv.base] at hz
        omega
      · omega
  · rw [if_neg hb0, if_neg hb0]

theorem knapsackSelectNoUpward_eq (items : List Item) (dm f : ℚ) :
    knapsackSelectNoUpward items dm f = knapsackSelect items dm f := by
  by_cases hcond : from_units (budgetWindow dm f).1 > (items.map fun it => it.mins).sum
  · simp only [knapsackSelect, knapsackSelectNoUpward]
    rw [if_pos hcond, if_pos hcond]
  · have hchosen : selChosenNoUp items dm f = selChosen items dm f := by
      unfold selChosenNoUp selChosen
      rw [selBestNoUp_eq]
    rw [knapsackSelectNoUpward_unfold items dm f hcond, selBestNoUp_eq, hchosen,
      ← knapsackSelect_eq items dm f hcond]

/-- C9: removing the upward-scan fallback (lines 132-134) changes nothing —
capacity 0 is always marked reached, so whenever the primary scan fails the
downward scan finds a capacity and the upward scan never runs. -/
theorem c9_upward_scan_dead (lectures : List Lecture) (daily_mins fatigue_score : ℚ)
    (completed_courses : List Completed) (selected_lectures : Option (List String)) :
    recommend_segments_noUpward lectures daily_mins fatigue_score completed_courses
        selected_lectures =
      recommend_segments lectures daily_mins fatigue_score completed_courses
        selected_lectures := by
  simp only [recommend_segments, recommend_segments_noUpward, knapsackSelectNoUpward_eq]

/-! ### Claim C10: the backtrack never revisits an item index -/

/-- The backtracking loop of lines 137-142 with the defensive repeat-index
guard (`if i in chosen_indices: break`) removed. -/
def backtrackAuxNoGuard (scaled : List Scaled) (d : ℕ → ℤ) :
    ℕ → ℤ → List ℤ → List ℤ × ℤ
  | 0, cur, acc => (acc, cur)
  | fuel + 1, cur, acc =>
    if cur ≤ 0 then (acc, cur)
    else
      backtrackAuxNoGuard scaled d fuel (cur - (pyIdx scaled (d cur.toNat)).u)
        (acc ++ [d cur.toNat])

theorem selBest_dp_ne (items : List Item) (dm f : ℚ) (hpos : 0 < selBest items dm f) :
    selDp items dm f (selBest items dm f).toNat ≠ -1 := by
  by_cases hb0 : primaryBest (selDp items dm f) (budgetWindow dm f).1 (selCap items dm f) = -1
  · by_cases hb1 : fallbackDown (selDp items dm f) (budgetWindow dm f).1 = -1
    · have hself : selBest items dm f =
          fallbackUp (selDp items dm f) (budgetWindow dm f).1 (selCap items dm f) := by
        simp only [selBest]
        rw [if_pos hb0, if_pos hb1]
      rw [hself] at hpos ⊢
      rcases fallbackUp_cases (selDp items dm f) (budgetWindow dm f).1 (selCap items dm f) with
        h | ⟨_, _, h⟩
      · omega
      · exact h
    · have hself : selBest items dm f =
          fallbackDown (selDp items dm f) (budgetWindow dm f).1 := by
        simp only [selBest]
        rw [if_pos hb0, if_neg hb1]
      rw [hself] at hpos ⊢
      rcases fallbackDown_cases (selDp items dm f) (budgetWindow dm f).1 with h | ⟨_, _, h⟩
      · omega
      · exact h
  · have hself : selBest items dm f =
        primaryBest (selDp items dm f) (budgetWindow dm f).1 (selCap items dm f) := by
      simp only [selBest]
      rw [if_neg hb0]
    rw [hself] at hpos ⊢
    rcases primaryBest_spec (selDp items dm f) (budgetWindow dm f).1 (selCap items dm f) with
      ⟨_, h⟩ | ⟨_, _, h, _⟩
    · omega
    · exact h

theorem backtrack_guard_free (scaled : List Scaled) (cap : ℕ) (d : ℕ → ℤ)
    (hinv : DpInv scaled cap scaled.length d) :
    ∀ (fuel : ℕ) (cur : ℤ) (acc : List ℤ),
      0 < cur → d cur.toNat ≠ -1 → (∀ j ∈ acc, d cur.toNat < j) →
      backtrackAux scaled d fuel cur acc = backtrackAuxNoGuard scaled d fuel cur acc := by
  intro fuel
  induction fuel with
  | zero =>
    intro cur acc _ _ _
    rfl
  | succ fuel ih =>
    intro cur acc hcur hdne haccb
    have hcn1 : 1 ≤ cur.toNat := by omega
    rcases hinv.codom cur.toNat hcn1 with hc | ⟨iN, hiN, hvi⟩
    · exact absurd hc hdne
    have hguard : d cur.toNat ∉ acc := fun hmem => absurd (haccb _ hmem) (lt_irrefl _)
    have hstep : backtrackAux scaled d (fuel + 1) cur acc =
        backtrackAux scaled d fuel (cur - (pyIdx scaled (d cur.toNat)).u)
          (acc ++ [d cur.toNat]) := by
      simp only [backtrackAux]
      rw [if_neg (by omega : ¬ cur ≤ 0), if_neg hguard]
    have hstep2 : backtrackAuxNoGuard scaled d (fuel + 1) cur acc =
        backtrackAuxNoGuard scaled d fuel (cur - (pyIdx scaled (d cur.toNat)).u)
          (acc ++ [d cur.toNat]) := by
      simp only [backtrackAuxNoGuard]
      rw [if_neg (by omega : ¬ cur ≤ 0)]
    obtain ⟨hupos, hwle, hdprev, hdlt⟩ := hinv.chain cur.toNat iN hvi
    have hpy : pyIdx scaled (d cur.toNat) = scaled.getD iN dummyScaled := by
      rw [hvi]
      unfold pyIdx
      rw [if_pos (Int.natCast_nonneg iN), Int.toNat_natCast]
    have hpyu : (pyIdx scaled (d cur.toNat)).u = wOf scaled iN := by
      rw [hpy]; rfl
    set cur2 := cur - (pyIdx scaled (d cur.toNat)).u with hcur2
    rw [hpyu] at hcur2
    have hcurc : ((cur.toNat : ℤ)) = cur := Int.toNat_of_nonneg (by omega)
    have hcur2eq : cur2.toNat = cur.toNat - (wOf scaled iN).toNat := by omega
    rw [hstep, hstep2]
    by_cases hz : cur2 ≤ 0
    · cases fuel with
      | zero => rfl
      | succ fuel2 =>
        simp only [backtrackAux, backtrackAuxNoGuard]
        rw [if_pos hz, if_pos hz]
    · have hcur2pos : 0 < cur2 := by omega
      have hdprev2 : d cur2.toNat ≠ -1 := by rw [hcur2eq]; exact hdprev
      have hval2 : d cur2.toNat < (iN : ℤ) := by rw [hcur2eq]; exact hdlt
      have haccb2 : ∀ j ∈ acc ++ [d cur.toNat], d cur2.toNat < j := by
        intro j hj
        rcases List.mem_append.mp hj with h | h
        · have hlt := haccb j h
          rw [hvi] at hlt
          omega
        · simp at h
          subst h
          rw [hvi]
          exact hval2
      exact ih cur2 (acc ++ [d cur.toNat]) hcur2pos hdprev2 haccb2

/-- C10: whenever the selector reaches the reconstruction (best capacity
positive), the backtrack walk visits strictly decreasing item indices and
terminates at capacity exactly 0, so the defensive repeat-index guard never
fires: the loop computes the same result as the guard-free loop. -/
theorem c10_backtrack_no_revisit (items : List Item) (dm f : ℚ)
    (hpos : 0 < selBest items dm f) :
    (backtrackAux (mkScaled items) (selDp items dm f) ((selCap items dm f).toNat + 1)
        (selBest items dm f) [] =
      backtrackAuxNoGuard (mkScaled items) (selDp items dm f) ((selCap items dm f).toNat + 1)
        (selBest items dm f) []) ∧
    ∃ l : List ℤ,
      backtrackAux (mkScaled items) (selDp items dm f) ((selCap items dm f).toNat + 1)
          (selBest items dm f) [] = (l, 0) ∧
      l.Pairwise (· > ·) := by
  have hw := mkScaled_nonneg items
  have hinv : DpInv (mkScaled items) (selCap items dm f).toNat (mkScaled items).length
      (selDp items dm f) := dpInv_buildDp _ _ hw
  have hd := selBest_dp_ne items dm f hpos
  have hcap : (selBest items dm f).toNat ≤ (selCap items dm f).toNat :=
    (hinv.sound (selBest items dm f).toNat (by omega) hd).1
  constructor
  · exact backtrack_guard_free _ _ _ hinv _ _ [] hpos hd (by simp)
  · obtain ⟨l, heq, hpw, _, _⟩ :=
      backtrack_spec (mkScaled items) (selCap items dm f).toNat (selDp items dm f) hinv
        ((selCap items dm f).toNat + 1) (selBest items dm f) [] hpos hd (by omega) (by simp)
    refine ⟨l, ?_, hpw⟩
    rw [heq]
    simp

theorem c10_backtrack_no_revisit_witness :
    0 < selBest [⟨"0-0", 0, some "L", some "a", 1, 3, 1⟩] 1 0 ∧
    ((backtrackAux (mkScaled [⟨"0-0", 0, some "L", some "a", 1, 3, 1⟩])
        (selDp [⟨"0-0", 0, some "L", some "a", 1, 3, 1⟩] 1 0)
        ((selCap [⟨"0-0", 0, some "L", some "a", 1, 3, 1⟩] 1 0).toNat + 1)
        (selBest [⟨"0-0", 0, some "L", some "a", 1, 3, 1⟩] 1 0) [] =
      backtrackAuxNoGuard (mkScaled [⟨"0-0", 0, some "L", some "a", 1, 3, 1⟩])
        (selDp [⟨"0-0", 0, some "L", some "a", 1, 3, 1⟩] 1 0)
        ((selCap [⟨"0-0", 0, some "L", some "a", 1, 3, 1⟩] 1 0).toNat + 1)
        (selBest [⟨"0-0", 0, some "L", some "a", 1, 3, 1⟩] 1 0) []) ∧
    ∃ l : List ℤ,
      backtrackAux (mkScaled [⟨"0-0", 0, some "L", some "a", 1, 3, 1⟩])
          (selDp [⟨"0-0", 0, some "L", some "a", 1, 3, 1⟩] 1 0)
          ((selCap [⟨"0-0", 0, some "L", some "a", 1, 3, 1⟩] 1 0).toNat + 1)
          (selBest [⟨"0-0", 0, some "L", some "a", 1, 3, 1⟩] 1 0) [] = (l, 0) ∧
      l.Pairwise (· > ·)) := by
  have hbw : budgetWindow 1 0 = (7, 13) := by
    norm_num [budgetWindow, to_units, pyRound, pyInt, SCALE, Int.fract]
  have hsc : mkScaled ([⟨"0-0", 0, some "L", some "a", 1, 3, 1⟩] : List Item) =
      [⟨10, ⟨"0-0", 0, some "L", some "a", 1, 3, 1⟩⟩] := by
    simp only [mkScaled, List.map_cons, List.map_nil]
    norm_num [to_units, pyRound, SCALE, Int.fract]
  have hb : selBest [⟨"0-0", 0, some "L", some "a", 1, 3, 1⟩] 1 0 = 10 := by
    simp only [selBest, selDp, selCap, hsc, hbw]
    decide
  have hpos : 0 < selBest [⟨"0-0", 0, some "L", some "a", 1, 3, 1⟩] 1 0 := by
    rw [hb]
    decide
  exact ⟨hpos, c10_backtrack_no_revisit _ 1 0 hpos⟩

/-! ### Claim C6: completed order-1 prerequisites block the frontier -/

theorem gateScan_nil (l : List Item) :
    ∀ avail : Finset ℤ, (∀ it ∈ l, it.order ≠ 1) → (∀ it ∈ l, it.order ∉ avail) →
      gateScan l avail = [] := by
  induction l with
  | nil =>
    intro avail _ _
    rfl
  | cons a rest ih =>
    intro avail h1 h2
    have hno : ¬ (a.order = 1 ∨ a.order ∈ avail) := by
      push_neg
      exact ⟨h1 a (List.mem_cons_self _ _), h2 a (List.mem_cons_self _ _)⟩
    rw [gateScan, if_neg hno]
    exact ih avail (fun it h => h1 it (List.mem_cons_of_mem _ h))
      (fun it h => h2 it (List.mem_cons_of_mem _ h))

theorem scopeFilter_subset (sel : Option (List String)) (l : List Item) :
    ∀ it ∈ scopeFilter sel l, it ∈ l := by
  intro it hit
  cases sel with
  | none => exact hit
  | some s =>
    simp only [scopeFilter] at hit
    split_ifs at hit with h
    · exact hit
    · exact List.mem_of_mem_filter hit

theorem completedFilter_spec (completed : List Completed) (l : List Item) :
    ∀ it ∈ completedFilter completed l, it ∈ l ∧
      (it.lecture_title, it.topic) ∉ completed.map fun c => (c.lecture_title, c.topic) := by
  intro it hit
  simp only [completedFilter, List.mem_filter] at hit
  refine ⟨hit.1, ?_⟩
  have h2 := hit.2
  simpa using h2

theorem orderGate_title_ne (items2 : List Item) (T : Option String)
    (h1 : ∀ it ∈ items2, it.lecture_title = T → it.order ≠ 1) :
    ∀ c ∈ orderGate items2, c.lecture_title ≠ T := by
  intro c hc hT
  simp only [orderGate, List.mem_flatMap] at hc
  obtain ⟨t, ht, hcg⟩ := hc
  have hmem : c ∈ sortByOrder (segsOf items2 t) := gateScan_subset _ _ _ hcg
  have hmem2 : c ∈ segsOf items2 t :=
    (List.Perm.mem_iff (List.perm_insertionSort _ _)).mp hmem
  have hct : c ∈ items2 ∧ c.lecture_title = t := by
    have := List.mem_filter.mp hmem2
    simpa [segsOf] using this
  have htT : t = T := hct.2.symm.trans hT
  subst htT
  have hno1 : ∀ it ∈ sortByOrder (segsOf items2 t), it.order ≠ 1 := by
    intro it hit
    have hit2 : it ∈ segsOf items2 t :=
      (List.Perm.mem_iff (List.perm_insertionSort _ _)).mp hit
    have hit3 : it ∈ items2 ∧ it.lecture_title = t := by
      have := List.mem_filter.mp hit2
      simpa [segsOf] using this
    exact h1 it hit3.1 hit3.2
  have hempty : gateScan (sortByOrder (segsOf items2 t)) {1} = [] :=
    gateScan_nil _ _ hno1
      (fun it h hm => hno1 it h (Finset.mem_singleton.mp hm))
  rw [hempty] at hcg
  exact absurd hcg (List.not_mem_nil _)

theorem knapsackSelect_mem_toChosen (items : List Item) (dm f : ℚ) :
    ∀ c ∈ (knapsackSelect items dm f).1, ∃ it ∈ items, c = toChosen it := by
  intro c hc
  by_cases hns : from_units (budgetWindow dm f).1 > (items.map fun it => it.mins).sum
  · have hksc : knapsackSelect items dm f =
        (items.map toChosen, (items.map fun it => it.mins).sum) := by
      simp only [knapsackSelect]
      rw [if_pos hns]
    rw [hksc] at hc
    obtain ⟨it, hit, rfl⟩ := List.mem_map.mp hc
    exact ⟨it, hit, rfl⟩
  · rw [knapsackSelect_eq items dm f hns] at hc
    by_cases hb : selBest items dm f ≤ 0
    · rw [if_pos hb] at hc
      exact absurd hc (List.not_mem_nil _)
    · rw [if_neg hb] at hc
      have hpos : 0 < selBest items dm f := by omega
      have hd := selBest_dp_ne items dm f hpos
      have hw := mkScaled_nonneg items
      have hinv : DpInv (mkScaled items) (selCap items dm f).toNat (mkScaled items).length
          (selDp items dm f) := dpInv_buildDp _ _ hw
      have hcap : (selBest items dm f).toNat ≤ (selCap items dm f).toNat :=
        (hinv.sound (selBest items dm f).toNat (by omega) hd).1
      obtain ⟨l, heq, hpw, hmeml, _⟩ :=
        backtrack_spec (mkScaled items) (selCap items dm f).toNat (selDp items dm f) hinv
          ((selCap items dm f).toNat + 1) (selBest items dm f) [] hpos hd (by omega) (by simp)
      simp only [selChosen] at hc
      rw [heq] at hc
      simp only [List.nil_append] at hc
      obtain ⟨x, hx, rfl⟩ := List.mem_map.mp hc
      obtain ⟨_, xN, rfl, hxl⟩ := hmeml x hx
      rw [mkScaled_length] at hxl
      rw [pyIdx_natCast items xN hxl]
      refine ⟨items.getD xN dummyItem, ?_, rfl⟩
      rw [List.getD_eq_getElem _ _ hxl]
      exact List.getElem_mem _

/-- C6: if every flattened order-1 item of lecture `T` is completed, the
recommendation contains no segment of lecture `T` of order 2 or more — the
completion filter runs before the soft-order gate, so the frontier of `T`
never advances past 1. -/
theorem c6_completed_prereqs_block (lectures : List Lecture) (dm f : ℚ)
    (completed : List Completed) (sel : Option (List String)) (T : Option String)
    (items0 : List Item) (res : List ChosenSeg × ℚ)
    (hfl : flatten_segments lectures = .ok items0)
    (hcomp : ∀ it ∈ items0, it.lecture_title = T → it.order = 1 →
      (it.lecture_title, it.topic) ∈ completed.map fun c => (c.lecture_title, c.topic))
    (hok : recommend_segments lectures dm f completed sel = .ok res) :
    ¬ ∃ c ∈ res.1, c.lecture_title = T ∧ 2 ≤ c.order := by
  rintro ⟨c, hc, hcT, _⟩
  simp only [recommend_segments, hfl] at hok
  replace hok :
      (if items0.isEmpty = true then Except.ok (([], 0) : List ChosenSeg × ℚ)
        else if (scopeFilter sel (completedFilter completed items0)).isEmpty = true then
          Except.ok ([], 0)
        else if (orderGate (scopeFilter sel (completedFilter completed items0))).isEmpty = true
          then Except.ok ([], 0)
        else Except.ok
          (knapsackSelect (orderGate (scopeFilter sel (completedFilter completed items0)))
            dm f)) = Except.ok res := hok
  by_cases h0 : items0.isEmpty = true
  · rw [if_pos h0] at hok
    simp only [Except.ok.injEq] at hok
    rw [← hok] at hc
    exact absurd hc (List.not_mem_nil _)
  · rw [if_neg h0] at hok
    by_cases h2 : (scopeFilter sel (completedFilter completed items0)).isEmpty = true
    · rw [if_pos h2] at hok
      simp only [Except.ok.injEq] at hok
      rw [← hok] at hc
      exact absurd hc (List.not_mem_nil _)
    · rw [if_neg h2] at hok
      by_cases h3 :
          (orderGate (scopeFilter sel (completedFilter completed items0))).isEmpty = true
      · rw [if_pos h3] at hok
        simp only [Except.ok.injEq] at hok
        rw [← hok] at hc
        exact absurd hc (List.not_mem_nil _)
      · rw [if_neg h3] at hok
        simp only [Except.ok.injEq] at hok
        rw [← hok] at hc
        obtain ⟨it, hit, rfl⟩ := knapsackSelect_mem_toChosen _ dm f c hc
        have h1 : ∀ j ∈ scopeFilter sel (completedFilter completed items0),
            j.lecture_title = T → j.order ≠ 1 := by
          intro j hj hjT hj1
          have hj2 := scopeFilter_subset sel _ j hj
          obtain ⟨hj3, hj4⟩ := completedFilter_spec completed _ j hj2
          exact hj4 (hcomp j hj3 hjT hj1)
        exact orderGate_title_ne _ T h1 it hit hcT

theorem c6_completed_prereqs_block_witness :
    flatten_segments
        [⟨some "L", [⟨some "t1", some 1, none, some 1⟩, ⟨some "t2", some 1, none, some 2⟩]⟩] =
      .ok [⟨"0-0", 0, some "L", some "t1", 1, 3, 1⟩, ⟨"0-1", 0, some "L", some "t2", 1, 3, 2⟩] ∧
    recommend_segments
        [⟨some "L", [⟨some "t1", some 1, none, some 1⟩, ⟨some "t2", some 1, none, some 2⟩]⟩]
        1 0 [⟨some "L", some "t1"⟩] none = .ok ([], 0) ∧
    ¬ ∃ c ∈ (([], 0) : List ChosenSeg × ℚ).1, c.lecture_title = some "L" ∧ 2 ≤ c.order := by
  have hfl : flatten_segments
      [⟨some "L", [⟨some "t1", some 1, none, some 1⟩, ⟨some "t2", some 1, none, some 2⟩]⟩] =
      .ok [⟨"0-0", 0, some "L", some "t1", 1, 3, 1⟩,
        ⟨"0-1", 0, some "L", some "t2", 1, 3, 2⟩] := rfl
  have hok : recommend_segments
      [⟨some "L", [⟨some "t1", some 1, none, some 1⟩, ⟨some "t2", some 1, none, some 2⟩]⟩]
      1 0 [⟨some "L", some "t1"⟩] none = .ok ([], 0) := rfl
  have hcomp : ∀ it ∈ ([⟨"0-0", 0, some "L", some "t1", 1, 3, 1⟩,
      ⟨"0-1", 0, some "L", some "t2", 1, 3, 2⟩] : List Item),
      it.lecture_title = some "L" → it.order = 1 →
      (it.lecture_title, it.topic) ∈
        ([⟨some "L", some "t1"⟩] : List Completed).map fun c => (c.lecture_title, c.topic) := by
    intro it hit _ h1
    rcases (by simpa using hit :
        it = (⟨"0-0", 0, some "L", some "t1", 1, 3, 1⟩ : Item) ∨
        it = (⟨"0-1", 0, some "L", some "t2", 1, 3, 2⟩ : Item)) with rfl | rfl
    · simp
    · exact absurd h1 (by decide)
  exact ⟨hfl, hok,
    c6_completed_prereqs_block _ 1 0 _ none (some "L") _ _ hfl hcomp hok⟩

/-! ### Claim C4: no rejection of a non-positive daily target -/

theorem orderGate_subset (l : List Item) : ∀ c ∈ orderGate l, c ∈ l := by
  intro c hc
  simp only [orderGate, List.mem_flatMap] at hc
  obtain ⟨t, _, hcg⟩ := hc
  have hmem : c ∈ sortByOrder (segsOf l t) := gateScan_subset _ _ _ hcg
  have hmem2 : c ∈ segsOf l t :=
    (List.Perm.mem_iff (List.perm_insertionSort _ _)).mp hmem
  exact List.mem_of_mem_filter hmem2

theorem to_units_nonpos {m : ℚ} (h : m ≤ 0) : to_units m = 0 := by
  unfold to_units
  have hs : m * SCALE ≤ 0 := by
    unfold SCALE
    nlinarith
  have := pyRound_nonpos hs
  omega

theorem budgetWindow_nonpos (dm f : ℚ) (hd : dm ≤ 0) : budgetWindow dm f = (0, 0) := by
  have hl0 : to_units (dm * (7/10)) = 0 := to_units_nonpos (by nlinarith)
  have hh0 : to_units (dm * (13/10)) = 0 := to_units_nonpos (by nlinarith)
  simp only [budgetWindow, hl0, hh0]
  split_ifs <;> norm_num [pyInt]

theorem knapsackSelect_degenerate (items : List Item) (dm f : ℚ) (hd : dm ≤ 0)
    (hmins : ∀ it ∈ items, 0 ≤ it.mins) :
    knapsackSelect items dm f = ([], 0) := by
  have hbw := budgetWindow_nonpos dm f hd
  have htot : 0 ≤ (items.map fun it => it.mins).sum := by
    apply List.sum_nonneg
    intro x hx
    obtain ⟨it, hit, rfl⟩ := List.mem_map.mp hx
    exact hmins it hit
  have hns : ¬ from_units (budgetWindow dm f).1 > (items.map fun it => it.mins).sum := by
    rw [hbw]
    have h0 : from_units ((0, 0) : ℤ × ℤ).1 = 0 := by norm_num [from_units, SCALE]
    rw [h0]
    exact not_lt.mpr htot
  have hw := mkScaled_nonneg items
  have hinv : DpInv (mkScaled items) (selCap items dm f).toNat (mkScaled items).length
      (selDp items dm f) := dpInv_buildDp _ _ hw
  have htotu : 0 ≤ ((mkScaled items).map fun sc => sc.u).sum := by
    apply List.sum_nonneg
    intro x hx
    obtain ⟨sc, hsc, rfl⟩ := List.mem_map.mp hx
    exact hw sc hsc
  have hcap : selCap items dm f = 0 := by
    simp only [selCap, hbw]
    omega
  have hb : selBest items dm f = 0 := by
    rcases primaryBest_spec (selDp items dm f) (budgetWindow dm f).1 (selCap items dm f) with
      ⟨hall, _⟩ | ⟨hb1, hb2, _, _⟩
    · exfalso
      have h0 := hall 0 (by simp [hbw]) (by simp [hcap])
      rw [show ((0:ℤ)).toNat = 0 from rfl, hinv.base] at h0
      omega
    · have hlowz : (budgetWindow dm f).1 = 0 := by rw [hbw]
      have hbne : primaryBest (selDp items dm f) (budgetWindow dm f).1 (selCap items dm f)
          ≠ -1 := by omega
      have hself : selBest items dm f =
          primaryBest (selDp items dm f) (budgetWindow dm f).1 (selCap items dm f) := by
        simp only [selBest]
        rw [if_neg hbne]
      rw [hself]
      omega
  rw [knapsackSelect_eq items dm f hns, if_pos (by rw [hb] : selBest items dm f ≤ 0)]

/-- C4 counterexample: a call with `daily_minutes_target = 0` is not rejected —
there is no `InvalidBudgetError` anywhere in the source; the zero window is
computed and the selector proceeds, returning the empty recommendation. -/
theorem c4_no_rejection_counterexample :
    recommend_segments [⟨some "L", [⟨some "t", some 5, none, none⟩]⟩] 0 0 [] none =
      .ok ([], 0) := by
  have hmins : ∀ it ∈ ([⟨"0-0", 0, some "L", some "t", 5, 3, 1⟩] : List Item), 0 ≤ it.mins := by
    intro it hit
    rcases (by simpa using hit : it = (⟨"0-0", 0, some "L", some "t", 5, 3, 1⟩ : Item)) with rfl
    norm_num
  have hks : knapsackSelect [⟨"0-0", 0, some "L", some "t", 5, 3, 1⟩] 0 0 = ([], 0) :=
    knapsackSelect_degenerate _ 0 0 (le_refl 0) hmins
  have hred : recommend_segments [⟨some "L", [⟨some "t", some 5, none, none⟩]⟩] 0 0 [] none =
      Except.ok (knapsackSelect [⟨"0-0", 0, some "L", some "t", 5, 3, 1⟩] 0 0) := rfl
  rw [hred, hks]

/-- C4 (amended): for every call with `daily_minutes_target ≤ 0` on inputs that
flatten successfully with non-negative durations, `recommend_segments` silently
computes the degenerate window `(0, 0)` and returns `([], 0.0)` — it never
raises. -/
theorem c4_degenerate_budget_ok (lectures : List Lecture) (dm f : ℚ)
    (completed : List Completed) (sel : Option (List String)) (items0 : List Item)
    (hd : dm ≤ 0)
    (hfl : flatten_segments lectures = .ok items0)
    (hmins : ∀ it ∈ items0, 0 ≤ it.mins) :
    recommend_segments lectures dm f completed sel = .ok ([], 0) := by
  have hstep : recommend_segments lectures dm f completed sel =
      (if items0.isEmpty = true then Except.ok (([], 0) : List ChosenSeg × ℚ)
        else if (scopeFilter sel (completedFilter completed items0)).isEmpty = true then
          Except.ok ([], 0)
        else if (orderGate (scopeFilter sel (completedFilter completed items0))).isEmpty = true
          then Except.ok ([], 0)
        else Except.ok
          (knapsackSelect (orderGate (scopeFilter sel (completedFilter completed items0)))
            dm f)) := by
    simp only [recommend_segments, hfl]
    rfl
  rw [hstep]
  split_ifs with h0 h2 h3
  · rfl
  · rfl
  · rfl
  · have hmins3 : ∀ it ∈ orderGate (scopeFilter sel (completedFilter completed items0)),
        0 ≤ it.mins := by
      intro it hit
      have h1 := orderGate_subset _ it hit
      have h2b := scopeFilter_subset sel _ it h1
      have h3b := (completedFilter_spec completed _ it h2b).1
      exact hmins it h3b
    rw [knapsackSelect_degenerate _ dm f hd hmins3]

theorem c4_degenerate_budget_ok_witness :
    ((-1 : ℚ) ≤ 0 ∧
      flatten_segments [⟨some "M", [⟨some "u", some 3, none, none⟩]⟩] =
        .ok [⟨"0-0", 0, some "M", some "u", 3, 3, 1⟩] ∧
      ∀ it ∈ ([⟨"0-0", 0, some "M", some "u", 3, 3, 1⟩] : List Item), 0 ≤ it.mins) ∧
    recommend_segments [⟨some "M", [⟨some "u", some 3, none, none⟩]⟩] (-1) 0 [] none =
      .ok ([], 0) := by
  have hd : (-1 : ℚ) ≤ 0 := by norm_num
  have hfl : flatten_segments [⟨some "M", [⟨some "u", some 3, none, none⟩]⟩] =
      .ok [⟨"0-0", 0, some "M", some "u", 3, 3, 1⟩] := rfl
  have hmins : ∀ it ∈ ([⟨"0-0", 0, some "M", some "u", 3, 3, 1⟩] : List Item), 0 ≤ it.mins := by
    intro it hit
    rcases (by simpa using hit : it = (⟨"0-0", 0, some "M", some "u", 3, 3, 1⟩ : Item)) with rfl
    norm_num
  exact ⟨⟨hd, hfl, hmins⟩, c4_degenerate_budget_ok _ (-1) 0 [] none _ hd hfl hmins⟩
